import Mathlib

/-!
Verification of the folder-sync / statistics core of the `school` video-lesson
tracker. The Python source under `src/utils` is shallowly embedded: pure
functions become Lean functions, the SQLite tables become lists of records,
timestamps and calendar days become integers, and Python floats are modelled
as exact rationals. Each section below names the source file and function it
translates.
-/

namespace School

/-! ### Character classes of the Python `re` module (ASCII fragment)

`src/utils/parser.py` compiles two regexes with `re.IGNORECASE`. We model the
ASCII fragment of the character classes `\s`, `\S`, `\d` and `.` (the
filenames at issue are ASCII; Unicode-only members of these classes are out of
scope of the claims). -/

/-- ASCII members of the regex class `\s`: space, tab, newline, carriage
return, vertical tab, form feed. -/
def pySpace (c : Char) : Bool :=
  c = ' ' || c = '\t' || c = '\n' || c = '\r' || c = Char.ofNat 11 || c = Char.ofNat 12

/-- ASCII members of the regex class `\d`. -/
def pyDigit (c : Char) : Bool :=
  '0' ≤ c && c ≤ '9'

/-- The regex `.` matches every character except a newline (no `re.DOTALL`). -/
def dotChar (c : Char) : Bool :=
  c ≠ '\n'

/-- Length of the leading whitespace run, the unique amount a `\s*` can
consume when the regex item after it cannot match a whitespace character. -/
def countSpaces (l : List Char) : Nat :=
  (l.takeWhile pySpace).length

/-- Python `str.strip()`: remove leading and trailing whitespace. -/
def pyStrip (l : List Char) : List Char :=
  ((l.dropWhile pySpace).reverse.dropWhile pySpace).reverse

/-! ### Dates

`parser.py` validates the date with `datetime.strptime(date_str, "%d-%m-%Y")`,
which checks the day against the real calendar month length. -/

structure Date where
  year : Nat
  month : Nat
  day : Nat
deriving DecidableEq, Repr

def isLeapYear (y : Nat) : Bool :=
  y % 4 = 0 && (y % 100 ≠ 0 || y % 400 = 0)

def daysInMonth (y m : Nat) : Nat :=
  if m = 2 then (if isLeapYear y then 29 else 28)
  else if m = 4 || m = 6 || m = 9 || m = 11 then 30
  else 31

def digitVal (c : Char) : Nat :=
  c.toNat - '0'.toNat

/-- Model of `datetime.strptime(s, "%d-%m-%Y").date()` on a ten-character
`DD-MM-YYYY` candidate (the regex has already fixed the digit/dash shape).
Returns `none` exactly when `strptime` raises `ValueError`. -/
def parseDMY (l : List Char) : Option Date :=
  match l with
  | [d1, d2, _, m1, m2, _, y1, y2, y3, y4] =>
    let d := 10 * digitVal d1 + digitVal d2
    let m := 10 * digitVal m1 + digitVal m2
    let y := 1000 * digitVal y1 + 100 * digitVal y2 + 10 * digitVal y3 + digitVal y4
    if 1 ≤ m && m ≤ 12 && 1 ≤ d && d ≤ daysInMonth y m && 1 ≤ y then
      some ⟨y, m, d⟩
    else none
  | _ => none

/-- Shape test for the regex group `(\d{2}-\d{2}-\d{4})`. -/
def dateShape (l : List Char) : Bool :=
  match l with
  | [d1, d2, h1, m1, m2, h2, y1, y2, y3, y4] =>
    pyDigit d1 && pyDigit d2 && h1 = '-' && pyDigit m1 && pyDigit m2 && h2 = '-' &&
    pyDigit y1 && pyDigit y2 && pyDigit y3 && pyDigit y4
  | _ => false

/-- Shape test for the literal `\.mp4` under `re.IGNORECASE`. -/
def extMp4 (l : List Char) : Bool :=
  match l with
  | [p0, c1, c2, c3] => p0 = '.' && c1.toLower = 'm' && c2.toLower = 'p' && c3 = '4'
  | _ => false

/-! ### The two filename regexes of `src/utils/parser.py`

`FILENAME_PATTERN = ^(.+?)\s*-\s*(.+?)\s*(\d{2}-\d{2}-\d{4})\.mp4$` and
`FILENAME_NO_SEPARATOR_PATTERN = ^(\S+)\s+(\d{2}-\d{2}-\d{4})\.mp4$`, both
IGNORECASE. We implement the backtracking search with Python's priorities
explicit: a lazy `+?` tries shorter matches first (ascending ranges), a
greedy `*` tries longer matches first (descending ranges), and the first
overall success wins. A `\s*` that must be followed by a character that is
not whitespace (the literal `-`, or the first `\d` of the date) can only
consume the whole leading whitespace run, so those positions are computed
directly with `countSpaces`. -/

/-- Tail of the primary pattern after the matched `-` separator:
the search for `\s*(.+?)\s*(\d{2}-\d{2}-\d{4})\.mp4$`. Returns the second
capture group and the date group. -/
def primaryTail (rest : List Char) : Option (List Char × List Char) :=
  (List.range (countSpaces rest + 1)).reverse.findSome? fun b =>
    let rest1 := rest.drop b
    (List.range rest1.length).findSome? fun j0 =>
      let g2 := rest1.take (j0 + 1)
      if g2.all dotChar then
        let rest2 := rest1.drop (j0 + 1)
        (List.range (countSpaces rest2 + 1)).reverse.findSome? fun c =>
          let rest3 := rest2.drop c
          if rest3.length = 14 && dateShape (rest3.take 10) && extMp4 (rest3.drop 10) then
            some (g2, rest3.take 10)
          else none
      else none

/-- Full match of `FILENAME_PATTERN` against the whole string, returning the
three capture groups (author, title, date). -/
def primaryMatch (s : List Char) : Option (List Char × List Char × List Char) :=
  (List.range s.length).findSome? fun i0 =>
    let i := i0 + 1
    let rest := s.drop i
    match rest.drop (countSpaces rest) with
    | [] => none
    | c :: rest2 =>
      if c = '-' then
        let g1 := s.take i
        if g1.all dotChar then
          match primaryTail rest2 with
          | some (g2, d) => some (g1, g2, d)
          | none => none
        else none
      else none

/-- Full match of `FILENAME_NO_SEPARATOR_PATTERN`. The greedy `\S+` must stop
exactly at the first whitespace character (a shorter match would put a
non-whitespace character where `\s+` needs one), and `\s+` must consume the
whole whitespace run (the date starts with a digit). -/
def noSepMatch (s : List Char) : Option (List Char × List Char) :=
  let g1 := s.takeWhile fun c => !pySpace c
  if g1.isEmpty then none
  else
    let rest := s.drop g1.length
    if countSpaces rest = 0 then none
    else
      let rest2 := rest.drop (countSpaces rest)
      if rest2.length = 14 && dateShape (rest2.take 10) && extMp4 (rest2.drop 10) then
        some (g1, rest2.take 10)
      else none

/-- Result of `parse_filename`. The Python dict also carries `unique_hash`
(an MD5 digest of lowercased author and title, unused by every claim) and
echoes the filename; both are omitted. -/
structure Parsed where
  author : String
  title : String
  lesson_date : Date
deriving DecidableEq, Repr

/-- Model of `parser.parse_filename`: strip the filename, try the primary
pattern (returning `None` if its date is invalid, without falling through),
then the no-separator fallback where the author doubles as the title. -/
def parse_filename (filename : String) : Option Parsed :=
  let clean := pyStrip filename.toList
  match primaryMatch clean with
  | some (g1, g2, d) =>
    match parseDMY d with
    | some date =>
      some { author := String.mk (pyStrip g1), title := String.mk (pyStrip g2),
             lesson_date := date }
    | none => none
  | none =>
    match noSepMatch clean with
    | some (g1, d) =>
      match parseDMY d with
      | some date =>
        some { author := String.mk (pyStrip g1), title := String.mk (pyStrip g1),
               lesson_date := date }
      | none => none
    | none => none

/-! ### Data model (`src/utils/db/base.py` schema)

A lesson row of the `lessons` table. The `created_at` / `updated_at` audit
timestamps are omitted (no claim mentions them); `file_mtime` (a REAL) is
modelled as an integer since it is only ever compared for equality;
`lesson_date` is a DATE and `completed_at` a nullable DATETIME string. -/

inductive Status
  | New
  | InProgress
  | Completed
  | Archived
deriving DecidableEq, Repr

structure Lesson where
  id : Nat
  file_hash : String
  filepath : String
  filename : String
  author : String
  title : String
  lesson_date : Date
  file_mtime : Int
  status : Status
  completed_at : Option String
  transcript : Option String
deriving DecidableEq, Repr

/-- The `lessons` table plus the AUTOINCREMENT counter that SQLite keeps for
its INTEGER PRIMARY KEY. -/
structure DB where
  rows : List Lesson
  nextId : Nat
deriving DecidableEq, Repr

/-- Well-formedness guaranteed by the schema: ids are unique (PRIMARY KEY),
file hashes are unique (UNIQUE constraint), and the autoincrement counter is
ahead of every existing id. -/
def WF (db : DB) : Prop :=
  (db.rows.map Lesson.id).Nodup ∧
  (db.rows.map Lesson.file_hash).Nodup ∧
  ∀ row ∈ db.rows, row.id < db.nextId

/-- Python truthiness of an optional string (`None` and the empty string are
falsy), as used by `sync_folder` on transcripts. -/
def truthy (t : Option String) : Bool :=
  match t with
  | none => false
  | some s => s ≠ ""

/-! ### Sync engine (`src/utils/db/lessons.py`, `sync_folder`)

A directory entry as produced by `os.scandir`. A `file_hash` of `none`
stands for any per-file OSError (in `entry.stat()` or while hashing), which
the code counts as one error and skips; `transcript` is the result of the
sidecar-srt lookup plus `parse_srt_file` (`none` when there is no `.srt` or
it cannot be decoded). -/
structure FileEntry where
  name : String
  is_file : Bool
  mtime : Int
  file_hash : Option String
  transcript : Option String
deriving DecidableEq, Repr

/-- The outcome of looking at the sync root: `notADir` models
`os.path.isdir` returning false, `scanError` models `os.scandir` raising
OSError (the code then sets `errors = 1` and returns at once), and
`entries` is a successful listing. -/
inductive ScanResult
  | notADir
  | scanError
  | entries (es : List FileEntry)
deriving DecidableEq, Repr

/-- One element of the `file_data` list built by the scan loop. -/
structure FileRec where
  file_hash : String
  filepath : String
  filename : String
  mtime : Int
  transcript : Option String
deriving DecidableEq, Repr

/-- Python `entry.name.lower().endswith(".mp4")`: the lowered 4-character
suffix is `.mp4` (false when the name is shorter than 4 characters). -/
def isMp4 (name : String) : Bool :=
  extMp4 (name.data.drop (name.data.length - 4))

/-- Model of `os.path.normpath(os.path.join(folder_path, entry.name))` for
scandir entry names, which never contain a path separator. -/
def normJoin (folder name : String) : String :=
  folder ++ "/" ++ name

/-- One step of the scan loop of `sync_folder`: keep a regular `.mp4` entry,
count a hashing failure as an error, skip everything else. -/
def buildStep (folder : String) (acc : List FileRec × Nat) (e : FileEntry) :
    List FileRec × Nat :=
  if e.is_file && isMp4 e.name then
    match e.file_hash with
    | some h =>
      (acc.1 ++ [⟨h, normJoin folder e.name, e.name, e.mtime, e.transcript⟩], acc.2)
    | none => (acc.1, acc.2 + 1)
  else acc

/-- The scan loop of `sync_folder`: keep regular `.mp4` entries, count a
hashing failure as an error. Returns `file_data` and the error count. -/
def buildFileData (folder : String) (entries : List FileEntry) : List FileRec × Nat :=
  entries.foldl (buildStep folder) ([], 0)

/-- The `existing_lookup` dict: built by a first-to-last pass over the rows,
keyed by `file_hash`, later rows overwriting earlier ones. -/
def lookupHash (rows : List Lesson) (h : String) : Option Lesson :=
  rows.foldl (fun acc row => if row.file_hash = h then some row else acc) none

/-- Python `set.add` on the `current_hashes` set, modelled as a list with
insert-if-absent (only membership is ever consumed). -/
def addHash (s : List String) (h : String) : List String :=
  if h ∈ s then s else s ++ [h]

/-- A record queued in `to_insert`, with the metadata from `parse_func`. -/
structure InsertRec where
  file_hash : String
  filepath : String
  filename : String
  author : String
  title : String
  lesson_date : Date
  mtime : Int
  transcript : Option String
deriving DecidableEq, Repr

/-- A record queued in `to_update`. -/
structure UpdateRec where
  id : Nat
  filename : String
  filepath : String
  mtime : Int
  status : Status
  transcript : Option String
deriving DecidableEq, Repr

/-- The classification condition of the diff loop: update when the path or
mtime changed, or when a transcript was recovered where none existed. -/
def needsUpdate (existing : Lesson) (f : FileRec) : Bool :=
  existing.filepath ≠ f.filepath || existing.file_mtime ≠ f.mtime ||
    (truthy f.transcript && !truthy existing.transcript)

def mkUpdateRec (existing : Lesson) (f : FileRec) : UpdateRec :=
  ⟨existing.id, f.filename, f.filepath, f.mtime, existing.status,
    if truthy f.transcript then f.transcript else existing.transcript⟩

def mkInsertRec (p : Parsed) (f : FileRec) : InsertRec :=
  ⟨f.file_hash, f.filepath, f.filename, p.author, p.title, p.lesson_date,
    f.mtime, f.transcript⟩

/-- Accumulator of the classification loop; `added` and `updated` of the
stats dict are the lengths of `to_insert` and `to_update`. -/
structure ClassifyState where
  errors : Nat
  current_hashes : List String
  to_insert : List InsertRec
  to_update : List UpdateRec
  unchanged : Nat
deriving DecidableEq, Repr

/-- One step of the diff loop over `file_data`, against the fixed
`existing_lookup` snapshot taken at the start of the run. -/
def classifyStep (parse : String → Option Parsed) (rows : List Lesson)
    (st : ClassifyState) (f : FileRec) : ClassifyState :=
  match parse f.filename with
  | none => { st with errors := st.errors + 1 }
  | some p =>
    let st := { st with current_hashes := addHash st.current_hashes f.file_hash }
    match lookupHash rows f.file_hash with
    | some existing =>
      if needsUpdate existing f then
        { st with to_update := st.to_update ++ [mkUpdateRec existing f] }
      else
        { st with unchanged := st.unchanged + 1 }
    | none =>
      { st with to_insert := st.to_insert ++ [mkInsertRec p f] }

def classifyFiles (parse : String → Option Parsed) (rows : List Lesson)
    (fd : List FileRec) : ClassifyState :=
  fd.foldl (classifyStep parse rows) ⟨0, [], [], [], 0⟩

/-- The `current_hashes` accumulation from an arbitrary starting set. -/
def obsFrom (parse : String → Option Parsed) (s : List String)
    (fd : List FileRec) : List String :=
  fd.foldl
    (fun s f => match parse f.filename with
      | none => s
      | some _ => addHash s f.file_hash)
    s

/-- The hashes observed by a scan: exactly the hashes of files whose
filename parsed (the loop `continue`s before `current_hashes.add` on a parse
failure). Independent of the database contents. -/
def observed_hashes (parse : String → Option Parsed) (fd : List FileRec) : List String :=
  obsFrom parse [] fd

/-- The files of `file_data` whose filename parses. -/
def validRecs (parse : String → Option Parsed) (fd : List FileRec) : List FileRec :=
  fd.filter fun f => (parse f.filename).isSome

/-- The `to_insert` queue as a function of the input (one entry per parsed
file whose hash is absent from the run-start snapshot). -/
def toInsertOf (parse : String → Option Parsed) (rows : List Lesson)
    (fd : List FileRec) : List InsertRec :=
  fd.filterMap fun f =>
    match parse f.filename with
    | none => none
    | some p =>
      match lookupHash rows f.file_hash with
      | some _ => none
      | none => some (mkInsertRec p f)

/-- The `to_update` queue as a function of the input. -/
def toUpdateOf (parse : String → Option Parsed) (rows : List Lesson)
    (fd : List FileRec) : List UpdateRec :=
  fd.filterMap fun f =>
    match parse f.filename with
    | none => none
    | some _ =>
      match lookupHash rows f.file_hash with
      | some ex => if needsUpdate ex f then some (mkUpdateRec ex f) else none
      | none => none

/-- The classification error count: files whose filename fails parsing. -/
def errorsOf (parse : String → Option Parsed) (fd : List FileRec) : Nat :=
  (fd.filter fun f => (parse f.filename).isNone).length

/-- The unchanged count: parsed files matching a stored row needing no
update. -/
def unchangedOf (parse : String → Option Parsed) (rows : List Lesson)
    (fd : List FileRec) : Nat :=
  (fd.filter fun f =>
    (parse f.filename).isSome &&
    (match lookupHash rows f.file_hash with
     | some ex => !needsUpdate ex f
     | none => false)).length


/-- The row created for an `INSERT INTO lessons ... VALUES (..., "New", ...)`
statement; `completed_at` is NULL and the id comes from AUTOINCREMENT. -/
def insertLesson (newId : Nat) (r : InsertRec) : Lesson :=
  ⟨newId, r.file_hash, r.filepath, r.filename, r.author, r.title, r.lesson_date,
    r.mtime, Status.New, none, r.transcript⟩

/-- Apply the batched INSERT statements in order, drawing fresh ids. -/
def applyInserts (db : DB) : List InsertRec → DB
  | [] => db
  | r :: rest =>
    applyInserts ⟨db.rows ++ [insertLesson db.nextId r], db.nextId + 1⟩ rest

/-- SQL COALESCE on two nullable strings. -/
def coalesce (a b : Option String) : Option String :=
  match a with
  | some x => some x
  | none => b

/-- The effect of one UPDATE statement on a row it matches: set filename,
filepath, file_mtime and `transcript = COALESCE(?, transcript)`. -/
def updLesson (u : UpdateRec) (row : Lesson) : Lesson :=
  { row with filename := u.filename, filepath := u.filepath,
             file_mtime := u.mtime,
             transcript := coalesce u.transcript row.transcript }

/-- One `UPDATE lessons SET ... WHERE id = ?` statement. -/
def applyUpdate (rows : List Lesson) (u : UpdateRec) : List Lesson :=
  rows.map fun row => if row.id = u.id then updLesson u row else row

def applyUpdates (rows : List Lesson) (us : List UpdateRec) : List Lesson :=
  us.foldl applyUpdate rows

/-- The rows produced by the batched INSERT with consecutive fresh ids. -/
def insRows (n : Nat) : List InsertRec → List Lesson
  | [] => []
  | r :: rest => insertLesson n r :: insRows (n + 1) rest

/-- The composite effect of the whole UPDATE batch on one row. -/
def updFold (us : List UpdateRec) (row : Lesson) : Lesson :=
  us.foldl (fun r u => if r.id = u.id then updLesson u r else r) row

/-- The archival UPDATE: every row whose hash was not observed and that is
not already archived gets status Archived. -/
def archiveRow (current : List String) (row : Lesson) : Lesson :=
  if row.file_hash ∉ current ∧ row.status ≠ Status.Archived then
    { row with status := Status.Archived }
  else row

/-- The rowcount reported by the archival UPDATE. -/
def archivedCount (current : List String) (rows : List Lesson) : Nat :=
  (rows.filter fun row =>
    decide (row.file_hash ∉ current ∧ row.status ≠ Status.Archived)).length

/-- The UNIQUE(file_hash) constraint checked by the batched INSERT: it fails
(raising IntegrityError and rolling the transaction back) when the batch
repeats a hash or collides with a stored one. -/
def insertOk (rows : List Lesson) (ins : List InsertRec) : Prop :=
  (ins.map InsertRec.file_hash).Nodup ∧
  ∀ r ∈ ins, ∀ row ∈ rows, row.file_hash ≠ r.file_hash

instance (rows : List Lesson) (ins : List InsertRec) : Decidable (insertOk rows ins) := by
  unfold insertOk; infer_instance

/-- The stats dict returned by `sync_folder`. -/
structure SyncStats where
  added : Nat
  updated : Nat
  archived : Nat
  errors : Nat
  unchanged : Nat
deriving DecidableEq, Repr

/-- Model of `sync_folder`. The result is `none` exactly when the run raises
(IntegrityError from the batched INSERT), in which case the enclosing
transaction is rolled back and no change is committed. A mid-iteration
scandir failure is `ScanResult.scanError`: the except branch overwrites the
error counter with 1 and returns before `file_data` is used. -/
def sync_folder (folder : String) (parse : String → Option Parsed)
    (scan : ScanResult) (db : DB) : Option (DB × SyncStats) :=
  match scan with
  | ScanResult.notADir => some (db, ⟨0, 0, 0, 0, 0⟩)
  | ScanResult.scanError => some (db, ⟨0, 0, 0, 1, 0⟩)
  | ScanResult.entries es =>
    let fd := (buildFileData folder es).1
    let e1 := (buildFileData folder es).2
    if fd.isEmpty then some (db, ⟨0, 0, 0, e1, 0⟩)
    else
      let st := classifyFiles parse db.rows fd
      if insertOk db.rows st.to_insert then
        let db1 := applyInserts db st.to_insert
        let rows2 := applyUpdates db1.rows st.to_update
        if st.current_hashes.isEmpty then
          some (⟨rows2, db1.nextId⟩,
            ⟨st.to_insert.length, st.to_update.length, 0, e1 + st.errors, st.unchanged⟩)
        else
          some (⟨rows2.map (archiveRow st.current_hashes), db1.nextId⟩,
            ⟨st.to_insert.length, st.to_update.length,
              archivedCount st.current_hashes rows2, e1 + st.errors, st.unchanged⟩)
      else none

/-! ### Status updates (`src/utils/db/lessons.py`, `update_status`) -/

/-- The accepted user-settable statuses and their strings. -/
def statusOfString (s : String) : Option Status :=
  if s = "New" then some Status.New
  else if s = "In Progress" then some Status.InProgress
  else if s = "Completed" then some Status.Completed
  else none

/-- Model of `update_status`: reject anything outside the three accepted
strings, otherwise set status and completed_at (the current timestamp string
for Completed, NULL otherwise) on every row with the given id. -/
def update_status (db : DB) (lesson_id : Nat) (status : String) (now : String) :
    Bool × DB :=
  match statusOfString status with
  | none => (false, db)
  | some st =>
    let completed_at := if status = "Completed" then some now else none
    (true,
      ⟨db.rows.map fun row =>
        if row.id = lesson_id then
          { row with status := st, completed_at := completed_at }
        else row,
      db.nextId⟩)

/-! ### Tags (`src/utils/db/tags.py`) -/

/-- First-occurrence deduplication, the grouping of a `GROUP BY` over a list
of join rows. -/
def dedupKeys (l : List Nat) : List Nat :=
  l.foldl (fun acc x => if x ∈ acc then acc else acc ++ [x]) []

/-- Model of `get_lessons_by_tag_ids` on the `lesson_tags` table (a list of
`(lesson_id, tag_id)` pairs): rows with `tag_id IN tag_ids` are grouped by
lesson and kept when `COUNT(DISTINCT tag_id)` equals `len(tag_ids)`. -/
def get_lessons_by_tag_ids (lesson_tags : List (Nat × Nat)) (tag_ids : List Nat) :
    List Nat :=
  if tag_ids.isEmpty then []
  else
    let matching := lesson_tags.filter fun r => r.2 ∈ tag_ids
    (dedupKeys (matching.map Prod.fst)).filter fun l =>
      (dedupKeys ((matching.filter fun r => r.1 = l).map Prod.snd)).length = tag_ids.length

/-- DATE ordering (ISO strings compare chronologically). -/
def dateLe (a b : Date) : Bool :=
  a.year < b.year || (a.year = b.year && (a.month < b.month ||
    (a.month = b.month && a.day ≤ b.day)))

def insertByDateDesc (x : Lesson) : List Lesson → List Lesson
  | [] => [x]
  | y :: ys => if dateLe y.lesson_date x.lesson_date then x :: y :: ys
               else y :: insertByDateDesc x ys

/-- The `ORDER BY lesson_date DESC` sort. -/
def sortByDateDesc (l : List Lesson) : List Lesson :=
  l.foldr insertByDateDesc []

/-- Model of `get_paginated_lessons` with every optional filter at its
default except `tag_ids` (the shape the tag-filtering claim is about). The
WHERE clause always excludes archived rows; with tags the join rows are
grouped by lesson id and kept when the distinct matched tags number
`len(tag_ids)`; ordering is by lesson_date descending and the page window is
`LIMIT page_size OFFSET (page-1)*page_size`. Returns the page and the total
count. -/
def get_paginated_lessons (lessons : List Lesson) (lesson_tags : List (Nat × Nat))
    (page page_size : Nat) (tag_ids : List Nat) : List Lesson × Nat :=
  let base := lessons.filter fun l => l.status ≠ Status.Archived
  let candidates :=
    if tag_ids.isEmpty then base
    else base.filter fun l =>
      (dedupKeys (((lesson_tags.filter fun r => r.2 ∈ tag_ids).filter
        fun r => r.1 = l.id).map Prod.snd)).length = tag_ids.length ∧
      ∃ t ∈ tag_ids, (l.id, t) ∈ lesson_tags
  let sorted := sortByDateDesc candidates
  ((sorted.drop ((page - 1) * page_size)).take page_size, candidates.length)

/-! ### Streaks (`src/utils/db/streaks.py`, `get_current_streak`, and
`src/utils/db/stats.py`, `get_activity_data`)

Calendar days are modelled as integers (the code only compares dates and
steps by `timedelta(days=1)`). A lesson's completion timestamp is reduced to
its day; `completed_at >= DATE("now", "-N days")` compares the timestamp
string against the day string N days before today, which holds exactly when
the completion day is at least `today - N`. -/

/-- Model of `get_activity_data(days)`: the distinct completion days within
the window (the per-day counts of the SQL GROUP BY are not consumed by the
streak computation). -/
def get_activity_data (days : Nat) (today : Int) (completions : List Int) : List Int :=
  (completions.filter fun d => today - (days : Int) ≤ d).dedup

def insertDesc (x : Int) : List Int → List Int
  | [] => [x]
  | y :: ys => if y ≤ x then x :: y :: ys else y :: insertDesc x ys

/-- The `sorted(..., reverse=True)` call. -/
def sortDesc (l : List Int) : List Int :=
  l.foldr insertDesc []

/-- The backward day-by-day walk (`while True: if current_check in date_set`).
The Python loop terminates because each successful check consumes a distinct
member of the finite date set below its maximum, so running it with fuel
`|dates| + 1` is exact: the fuel can never be exhausted before the first
gap. -/
def streakLoop (s : List Int) : Int → Nat → Nat
  | _, 0 => 0
  | cur, fuel + 1 => if cur ∈ s then streakLoop s (cur - 1) fuel + 1 else 0

/-- Model of `get_current_streak`: activity over a 365-day window, distinct
dates sorted descending; a streak exists only if the most recent date is
today or yesterday, and then extends backward day by day until the first
gap. -/
def get_current_streak (today : Int) (completions : List Int) : Nat :=
  let activity := get_activity_data 365 today completions
  if activity.isEmpty then 0
  else
    match sortDesc activity with
    | [] => 0
    | d0 :: rest =>
      if d0 = today then
        1 + streakLoop (d0 :: rest) (today - 1) (rest.length + 2)
      else if d0 = today - 1 then
        1 + streakLoop (d0 :: rest) (today - 2) (rest.length + 2)
      else 0

/-! ### Personal records (`src/utils/db/records.py`, `get_most_consistent_week`)

The SQL feeding the computation groups completed lessons by
`(strftime("%Y-%W"), DATE(completed_at))` and yields one row per week/day
with a count; the Python then regroups rows into an insertion-ordered dict
keyed by week. Float arithmetic is modelled over the exact rationals. -/

structure WeekRow where
  week : String
  date : String
  count : Nat
deriving DecidableEq, Repr

/-- The insertion-ordered `weeks` dict: week key mapped to the list of its
daily counts, in row order. -/
def buildWeeks (rows : List WeekRow) : List (String × List Nat) :=
  rows.foldl
    (fun acc r =>
      if (acc.map Prod.fst).contains r.week then
        acc.map fun p => if p.1 = r.week then (p.1, p.2 ++ [r.count]) else p
      else acc ++ [(r.week, [r.count])])
    []

def avgQ (counts : List Nat) : ℚ :=
  ((counts.sum : ℚ)) / (counts.length : ℚ)

/-- The population variance `sum((c - avg)^2 for c in counts) / len(counts)`. -/
def varianceQ (counts : List Nat) : ℚ :=
  ((counts.map fun c => ((c : ℚ) - avgQ counts) ^ 2).sum) / (counts.length : ℚ)

/-- Python `round(x, 1)` with round-half-to-even, over exact rationals. -/
def round1 (x : ℚ) : ℚ :=
  let t := x * 10
  let f : ℤ := ⌊t⌋
  let r := t - (f : ℚ)
  if r < 1 / 2 then (f : ℚ) / 10
  else if 1 / 2 < r then ((f : ℚ) + 1) / 10
  else if 2 ∣ f then (f : ℚ) / 10 else ((f : ℚ) + 1) / 10

/-- Result dict of `get_most_consistent_week` (the no-data early return also
carries a `value: 0` entry; all zero shapes are collapsed into
`week = none, variance = 0, avg_per_day = 0`). -/
structure ConsistentWeek where
  week : Option String
  variance : ℚ
  avg_per_day : ℚ
deriving DecidableEq, Repr

/-- The running minimum of the selection loop: `best` holds
`(week, variance, avg)`, starting as `None` with variance infinity, replaced
only on strictly smaller variance; only weeks with at least 3 distinct
active days enter. -/
def bestWeekFold (ws : List (String × List Nat)) :
    Option (String × ℚ × ℚ) :=
  ws.foldl
    (fun best p =>
      if 3 ≤ p.2.length then
        match best with
        | none => some (p.1, varianceQ p.2, avgQ p.2)
        | some b => if varianceQ p.2 < b.2.1 then some (p.1, varianceQ p.2, avgQ p.2)
                    else some b
      else best)
    none

/-- Model of `get_most_consistent_week`. The final `if best_week:` is a
Python truthiness test, so an empty-string week key would also fall through
to the zero result. -/
def get_most_consistent_week (rows : List WeekRow) : ConsistentWeek :=
  match bestWeekFold (buildWeeks rows) with
  | some (w, v, a) =>
    if w = "" then ⟨none, 0, 0⟩
    else ⟨some w, v, round1 a⟩
  | none => ⟨none, 0, 0⟩

/-! ## Theorems -/

/-! ### Claim C9: bad sync root -/

/-- A completion on every one of the 368 consecutive days
`today - 367 .. today` (here `today = 0`). -/
def longRun : List Int := (List.range 367).map fun i : Nat => -(i : Int)

/-- Definition written from the words of claim C4, not from the source: the
claimed streak value uses the most recent completion date of the FULL
completion set and walks backward with no window restriction. -/
def claimedStreak (today : Int) (completions : List Int) : Nat :=
  match sortDesc completions.dedup with
  | [] => 0
  | d0 :: rest =>
    if d0 = today ∨ d0 = today - 1 then
      1 + streakLoop (d0 :: rest) (d0 - 1) (rest.length + 2)
    else 0

/-- The weeks that enter the selection loop: at least 3 distinct active
days (`if len(counts) >= 3`). -/
def qualifyingWeeks (ws : List (String × List Nat)) : List (String × List Nat) :=
  ws.filter fun p => 3 ≤ p.2.length

/-- Claim C9: for a path that is not an existing accessible directory,
`sync_folder` raises no exception and returns a stats record with
`added = updated = archived = unchanged = 0`, leaving the store untouched.
Both failure modes are covered: `os.path.isdir` false (errors also 0) and
`os.scandir` raising OSError (errors reported as 1). -/
theorem claim_C9_bad_path (folder : String) (parse : String → Option Parsed) (db : DB) :
    (∃ s, sync_folder folder parse ScanResult.notADir db = some (db, s) ∧
      s.added = 0 ∧ s.updated = 0 ∧ s.archived = 0 ∧ s.unchanged = 0) ∧
    (∃ s, sync_folder folder parse ScanResult.scanError db = some (db, s) ∧
      s.added = 0 ∧ s.updated = 0 ∧ s.archived = 0 ∧ s.unchanged = 0) :=
  ⟨⟨⟨0, 0, 0, 0, 0⟩, rfl, rfl, rfl, rfl, rfl⟩,
   ⟨⟨0, 0, 0, 1, 0⟩, rfl, rfl, rfl, rfl, rfl⟩⟩

/-! ### Claim C8: completed_at lifecycle -/

/-- Claim C8: for every lesson row, `update_status` with status Completed
sets `completed_at` to the (non-null) current timestamp, and with either
other accepted status (New, In Progress) sets it to NULL. -/
theorem claim_C8_completed_at (db : DB) (lesson_id : Nat) (status now : String)
    (row : Lesson)
    (hrow : row ∈ (update_status db lesson_id status now).2.rows)
    (hid : row.id = lesson_id) :
    (status = "Completed" → row.completed_at = some now) ∧
    ((status = "New" ∨ status = "In Progress") → row.completed_at = none) := by
  have key : ∀ st, statusOfString status = some st →
      row.completed_at = (if status = "Completed" then some now else none) := by
    intro st hst
    simp only [update_status, hst] at hrow
    obtain ⟨r0, hr0, heq⟩ := List.mem_map.1 hrow
    by_cases hcase : r0.id = lesson_id
    · rw [if_pos hcase] at heq
      rw [← heq]
    · rw [if_neg hcase] at heq
      rw [← heq] at hid
      exact absurd hid hcase
  refine ⟨fun h => ?_, fun h => ?_⟩
  · subst h
    have hv := key Status.Completed (by decide)
    rw [hv, if_pos rfl]
  · rcases h with h | h <;> subst h
    · have hv := key Status.New (by decide)
      rw [hv, if_neg (by decide)]
    · have hv := key Status.InProgress (by decide)
      rw [hv, if_neg (by decide)]

/-- Witness for claim C8 at a concrete store: marking lesson 1 Completed
stores the timestamp, and the same theorem applied to a New update clears
it. -/
theorem claim_C8_completed_at_witness :
    (("Completed" : String) = "Completed" →
      (Lesson.mk 1 "h" "p" "n" "a" "t" ⟨2023, 1, 1⟩ 0 Status.Completed
        (some "2024-01-02 10:00:00") none).completed_at = some "2024-01-02 10:00:00") ∧
    ((("Completed" : String) = "New" ∨ ("Completed" : String) = "In Progress") →
      (Lesson.mk 1 "h" "p" "n" "a" "t" ⟨2023, 1, 1⟩ 0 Status.Completed
        (some "2024-01-02 10:00:00") none).completed_at = none) :=
  claim_C8_completed_at
    ⟨[⟨1, "h", "p", "n", "a", "t", ⟨2023, 1, 1⟩, 0, Status.New, none, none⟩], 2⟩
    1 "Completed" "2024-01-02 10:00:00"
    (Lesson.mk 1 "h" "p" "n" "a" "t" ⟨2023, 1, 1⟩ 0 Status.Completed
      (some "2024-01-02 10:00:00") none)
    (by decide) (by decide)

/-! ### Claim C2: the no-separator fallback grammar -/

/-- Counterexample to claim C2: the fallback pattern anchors its author
group as `\S+`, so an author containing a space does not match; the claimed
example filename fails to parse instead of yielding
author = title = "John Smith". -/
theorem claim_C2_counterexample :
    parse_filename "John Smith 01-06-2023.mp4" = none := by decide

/-! Supporting lemmas for the amended fallback-grammar claim: a filename
`<token> DD-MM-YYYY.mp4` with a whitespace-free, hyphen-free, nonempty
token never matches the primary pattern (there is no `-` the separator
could consume outside the date, and from any cut inside the date too few
characters remain), and matches the fallback with the token as group 1. -/

theorem dateShape_elim {l : List Char} (h : dateShape l = true) :
    ∃ c1 c2 c3 c4 c5 c6 c7 c8,
      l = [c1, c2, '-', c3, c4, '-', c5, c6, c7, c8] ∧
      pyDigit c1 = true ∧ pyDigit c2 = true ∧ pyDigit c3 = true ∧ pyDigit c4 = true ∧
      pyDigit c5 = true ∧ pyDigit c6 = true ∧ pyDigit c7 = true ∧ pyDigit c8 = true := by
  match l, h with
  | [c1, c2, h1, c3, c4, h2, c5, c6, c7, c8], h => ?_
  simp only [dateShape, Bool.and_eq_true, decide_eq_true_eq] at h
  obtain ⟨⟨⟨⟨⟨⟨⟨⟨⟨q1, q2⟩, e1⟩, q3⟩, q4⟩, e2⟩, q5⟩, q6⟩, q7⟩, q8⟩ := h
  exact ⟨c1, c2, c3, c4, c5, c6, c7, c8, by rw [e1, e2], q1, q2, q3, q4, q5, q6, q7, q8⟩

theorem pyDigit_ne_hyphen {c : Char} (h : pyDigit c = true) : c ≠ '-' := by
  intro hc
  subst hc
  exact absurd h (by decide)

theorem pyDigit_not_space {c : Char} (h : pyDigit c = true) : pySpace c = false := by
  have h0 : ('0' : Char) ≤ c ∧ c ≤ ('9' : Char) := by
    simpa [pyDigit, Bool.and_eq_true, decide_eq_true_eq] using h
  have hne : c ≠ ' ' ∧ c ≠ '\t' ∧ c ≠ '\n' ∧ c ≠ '\r' ∧
      c ≠ Char.ofNat 11 ∧ c ≠ Char.ofNat 12 := by
    refine ⟨?_, ?_, ?_, ?_, ?_, ?_⟩ <;> rintro rfl <;> revert h0 <;> decide
  simp [pySpace, hne.1, hne.2.1, hne.2.2.1, hne.2.2.2.1, hne.2.2.2.2.1,
    hne.2.2.2.2.2]

theorem countSpaces_cons_false {c : Char} {t : List Char} (h : pySpace c = false) :
    countSpaces (c :: t) = 0 := by
  simp [countSpaces, List.takeWhile, h]

theorem countSpaces_cons_true {c : Char} {t : List Char} (h : pySpace c = true) :
    countSpaces (c :: t) = countSpaces t + 1 := by
  simp [countSpaces, List.takeWhile, h]

theorem drop_append_len {α : Type} (l r : List α) (k : Nat) :
    (l ++ r).drop (l.length + k) = r.drop k := by
  induction l with
  | nil => simp
  | cons a t ih => simp [Nat.succ_add, ih]

theorem dropWhile_all_false {l : List Char} (h : ∀ c ∈ l, pySpace c = false) :
    l.dropWhile pySpace = l := by
  cases l with
  | nil => rfl
  | cons a t => simp [List.dropWhile, h a (List.mem_cons_self a t)]

theorem pyStrip_all {l : List Char} (h : ∀ c ∈ l, pySpace c = false) :
    pyStrip l = l := by
  unfold pyStrip
  rw [dropWhile_all_false h,
      dropWhile_all_false (fun c hc => h c (List.mem_reverse.mp hc)),
      List.reverse_reverse]

theorem pyStrip_eq_self {l : List Char}
    (hh : ∀ c, l.head? = some c → pySpace c = false)
    (hl : ∀ c, l.getLast? = some c → pySpace c = false) : pyStrip l = l := by
  cases l with
  | nil => rfl
  | cons a t =>
    unfold pyStrip
    have h1 : (a :: t).dropWhile pySpace = a :: t := by
      simp [List.dropWhile, hh a rfl]
    rw [h1]
    rcases hr : (a :: t).reverse with _ | ⟨b, rb⟩
    · exact absurd (congrArg List.length hr) (by simp)
    · have hb : (a :: t).getLast? = some b := by
        rw [← List.head?_reverse, hr]
        rfl
      have h2 : (b :: rb).dropWhile pySpace = b :: rb := by
        simp [List.dropWhile, hl b hb]
      rw [h2, ← hr, List.reverse_reverse]

theorem takeWhile_nonspace_append (aut t : List Char)
    (h : ∀ c ∈ aut, pySpace c = false) :
    ((aut ++ ' ' :: t).takeWhile fun c => !pySpace c) = aut := by
  induction aut with
  | nil => simp [List.takeWhile, pySpace]
  | cons a r ih =>
    have ha := h a (List.mem_cons_self a r)
    simp only [List.cons_append, List.takeWhile, ha]
    simp [ih fun c hc => h c (List.mem_cons_of_mem a hc)]

theorem drop_cons_of_lt {α : Type} (l : List α) {n : Nat} (h : n < l.length) :
    ∃ c t, l.drop n = c :: t ∧ c ∈ l := by
  induction l generalizing n with
  | nil => simp at h
  | cons a r ih =>
    cases n with
    | zero => exact ⟨a, r, rfl, List.mem_cons_self a r⟩
    | succ m =>
      obtain ⟨c, t, hd, hm⟩ := ih (by simpa using h)
      exact ⟨c, t, by simpa using hd, List.mem_cons_of_mem a hm⟩

theorem primaryTail_none_of_short {l : List Char} (h : l.length ≤ 14) :
    primaryTail l = none := by
  rw [primaryTail]
  rw [List.findSome?_eq_none_iff]
  intro b _
  rw [List.findSome?_eq_none_iff]
  intro j0 _
  by_cases hall : ((l.drop b).take (j0 + 1)).all dotChar
  · rw [if_pos hall, List.findSome?_eq_none_iff]
    intro c _
    exact if_neg (by
      intro hcond
      simp only [Bool.and_eq_true, decide_eq_true_eq] at hcond
      have h1 := hcond.1.1
      simp only [List.length_drop] at h1
      omega)
  · rw [if_neg hall]

theorem primaryMatch_none_token (aut ds : List Char)
    (hsp : ∀ c ∈ aut, pySpace c = false)
    (hhy : ∀ c ∈ aut, c ≠ '-')
    (hds : dateShape ds = true) :
    primaryMatch (aut ++ ' ' :: (ds ++ ['.', 'm', 'p', '4'])) = none := by
  obtain ⟨c1, c2, c3, c4, c5, c6, c7, c8, rfl, q1, q2, q3, q4, q5, q6, q7, q8⟩ :=
    dateShape_elim hds
  rw [primaryMatch, List.findSome?_eq_none_iff]
  intro i0 hi0
  rw [List.mem_range] at hi0
  simp only []
  rcases Nat.lt_or_ge (i0 + 1) aut.length with hlt2 | hge2
  · -- the cut is strictly inside the author token: the next character is a
    -- non-space, non-hyphen author character
    have hdrop : (aut ++ ' ' :: ([c1, c2, '-', c3, c4, '-', c5, c6, c7, c8] ++
        ['.', 'm', 'p', '4'])).drop (i0 + 1) =
        aut.drop (i0 + 1) ++ ' ' :: ([c1, c2, '-', c3, c4, '-', c5, c6, c7, c8] ++
        ['.', 'm', 'p', '4']) := List.drop_append_of_le_length (by omega)
    obtain ⟨c, t, hcons, hcm⟩ := drop_cons_of_lt aut hlt2
    rw [hdrop, hcons, List.cons_append, countSpaces_cons_false (hsp c hcm),
        List.drop_zero]
    simp [hhy c hcm]
  · rcases Nat.lt_or_ge i0 aut.length with hlt | hge
    · -- the cut is exactly at the end of the token: the space is skipped and
      -- the first date digit is not a hyphen
      have hdrop : (aut ++ ' ' :: ([c1, c2, '-', c3, c4, '-', c5, c6, c7, c8] ++
          ['.', 'm', 'p', '4'])).drop (i0 + 1) =
          aut.drop (i0 + 1) ++ ' ' :: ([c1, c2, '-', c3, c4, '-', c5, c6, c7, c8] ++
          ['.', 'm', 'p', '4']) := List.drop_append_of_le_length (by omega)
      have hnil : aut.drop (i0 + 1) = [] := List.drop_eq_nil_of_le (by omega)
      rw [hdrop, hnil, List.nil_append, List.cons_append,
          countSpaces_cons_true (by decide),
          countSpaces_cons_false (pyDigit_not_space q1), List.drop_succ_cons,
          List.drop_zero]
      simp [pyDigit_ne_hyphen q1]
    · -- the cut is at or after the separating space: only 15 suffixes remain
      have hlen : (aut ++ ' ' :: ([c1, c2, '-', c3, c4, '-', c5, c6, c7, c8] ++
          ['.', 'm', 'p', '4'])).length = aut.length + 15 := by simp
      have hk : i0 - aut.length ≤ 14 := by
        rw [hlen] at hi0
        omega
      have hdrop : (aut ++ ' ' :: ([c1, c2, '-', c3, c4, '-', c5, c6, c7, c8] ++
          ['.', 'm', 'p', '4'])).drop (i0 + 1) =
          ([c1, c2, '-', c3, c4, '-', c5, c6, c7, c8] ++
            ['.', 'm', 'p', '4']).drop (i0 - aut.length) := by
        have hsplit : i0 + 1 = aut.length + (i0 - aut.length + 1) := by omega
        rw [hsplit, drop_append_len]
        rfl
      rw [hdrop]
      set k := i0 - aut.length with hkdef
      clear_value k
      have hpt1 : primaryTail [c3, c4, '-', c5, c6, c7, c8, '.', 'm', 'p', '4'] =
          none := primaryTail_none_of_short (by simp)
      have hpt2 : primaryTail [c5, c6, c7, c8, '.', 'm', 'p', '4'] =
          none := primaryTail_none_of_short (by simp)
      interval_cases k <;>
        simp only [List.cons_append, List.nil_append, List.drop_succ_cons,
          List.drop_zero]
      · rw [countSpaces_cons_false (pyDigit_not_space q1)]
        simp [pyDigit_ne_hyphen q1]
      · rw [countSpaces_cons_false (pyDigit_not_space q2)]
        simp [pyDigit_ne_hyphen q2]
      · rw [countSpaces_cons_false (by decide)]
        simp [hpt1]
      · rw [countSpaces_cons_false (pyDigit_not_space q3)]
        simp [pyDigit_ne_hyphen q3]
      · rw [countSpaces_cons_false (pyDigit_not_space q4)]
        simp [pyDigit_ne_hyphen q4]
      · rw [countSpaces_cons_false (by decide)]
        simp [hpt2]
      · rw [countSpaces_cons_false (pyDigit_not_space q5)]
        simp [pyDigit_ne_hyphen q5]
      · rw [countSpaces_cons_false (pyDigit_not_space q6)]
        simp [pyDigit_ne_hyphen q6]
      · rw [countSpaces_cons_false (pyDigit_not_space q7)]
        simp [pyDigit_ne_hyphen q7]
      · rw [countSpaces_cons_false (pyDigit_not_space q8)]
        simp [pyDigit_ne_hyphen q8]
      · rw [countSpaces_cons_false (by decide)]
        simp [show ('.' : Char) ≠ '-' from by decide]
      · rw [countSpaces_cons_false (by decide)]
        simp [show ('m' : Char) ≠ '-' from by decide]
      · rw [countSpaces_cons_false (by decide)]
        simp [show ('p' : Char) ≠ '-' from by decide]
      · rw [countSpaces_cons_false (by decide)]
        simp [show ('4' : Char) ≠ '-' from by decide]
      · rfl

theorem noSepMatch_token (aut ds : List Char)
    (hne : aut ≠ [])
    (hsp : ∀ c ∈ aut, pySpace c = false)
    (hds : dateShape ds = true) :
    noSepMatch (aut ++ ' ' :: (ds ++ ['.', 'm', 'p', '4'])) = some (aut, ds) := by
  obtain ⟨c1, c2, c3, c4, c5, c6, c7, c8, hdseq, q1, q2, q3, q4, q5, q6, q7, q8⟩ :=
    dateShape_elim hds
  rw [noSepMatch]
  simp only [takeWhile_nonspace_append aut _ hsp]
  rw [if_neg (by simpa [List.isEmpty_iff] using hne)]
  have hdrop : (aut ++ ' ' :: (ds ++ ['.', 'm', 'p', '4'])).drop aut.length =
      ' ' :: (ds ++ ['.', 'm', 'p', '4']) := by
    have hsplit : aut.length = aut.length + 0 := by omega
    rw [hsplit, drop_append_len, List.drop_zero]
  rw [hdrop]
  have hcs : countSpaces (' ' :: (ds ++ ['.', 'm', 'p', '4'])) = 1 := by
    rw [hdseq, List.cons_append, countSpaces_cons_true (by decide),
        countSpaces_cons_false (pyDigit_not_space q1)]
  rw [hcs]
  rw [if_neg (by omega)]
  have hlen10 : ds.length = 10 := by rw [hdseq]; rfl
  have hdrop1 : (' ' :: (ds ++ ['.', 'm', 'p', '4'])).drop 1 =
      ds ++ ['.', 'm', 'p', '4'] := rfl
  rw [hdrop1]
  have htake : (ds ++ ['.', 'm', 'p', '4']).take 10 = ds := by
    rw [← hlen10, List.take_left]
  have hdrop10 : (ds ++ ['.', 'm', 'p', '4']).drop 10 = ['.', 'm', 'p', '4'] := by
    rw [← hlen10, List.drop_left]
  rw [if_pos]
  · rw [htake]
  · rw [htake, hdrop10]
    simp only [Bool.and_eq_true, decide_eq_true_eq]
    refine ⟨⟨?_, hds⟩, by decide⟩
    simp [hlen10]

theorem getLast?_append_ext (l : List Char) :
    (l ++ ['.', 'm', 'p', '4']).getLast? = some '4' := by
  rw [← List.head?_reverse, List.reverse_append]
  rfl

/-- Claim C2 (amended): the fallback grammar requires the author to be a
single whitespace-free token (the pattern anchors it as `\S+`); for every
filename `<token> DD-MM-YYYY.mp4` whose nonempty token contains no
whitespace and no hyphen and whose date is valid, `parse_filename` returns
author and title both equal to the token together with the parsed date.
(A token containing a hyphen is instead picked up by the primary pattern,
and a token containing a space fails to parse, per the counterexample.) -/
theorem claim_C2_amended (aut ds : List Char) (d : Date)
    (hne : aut ≠ [])
    (hsp : ∀ c ∈ aut, pySpace c = false)
    (hhy : ∀ c ∈ aut, c ≠ '-')
    (hds : dateShape ds = true)
    (hdate : parseDMY ds = some d) :
    parse_filename (String.mk (aut ++ ' ' :: (ds ++ ['.', 'm', 'p', '4']))) =
      some { author := String.mk aut, title := String.mk aut, lesson_date := d } := by
  have htl : (String.mk (aut ++ ' ' :: (ds ++ ['.', 'm', 'p', '4']))).toList =
      aut ++ ' ' :: (ds ++ ['.', 'm', 'p', '4']) := rfl
  have hstrip : pyStrip (aut ++ ' ' :: (ds ++ ['.', 'm', 'p', '4'])) =
      aut ++ ' ' :: (ds ++ ['.', 'm', 'p', '4']) := by
    apply pyStrip_eq_self
    · intro c hc
      rcases aut with _ | ⟨a, t⟩
      · exact absurd rfl hne
      · simp only [List.cons_append, List.head?_cons, Option.some.injEq] at hc
        rw [← hc]
        exact hsp a (List.mem_cons_self a t)
    · intro c hc
      have hassoc : aut ++ ' ' :: (ds ++ ['.', 'm', 'p', '4']) =
          (aut ++ ' ' :: ds) ++ ['.', 'm', 'p', '4'] := by simp
      rw [hassoc, getLast?_append_ext] at hc
      cases hc
      decide
  simp only [parse_filename, htl, hstrip,
    primaryMatch_none_token aut ds hsp hhy hds,
    noSepMatch_token aut ds hne hsp hds, hdate, pyStrip_all hsp]

/-- Witness for claim C2 (amended) at the spec-adjacent concrete filename
with a whitespace-free author. -/
theorem claim_C2_amended_witness :
    parse_filename (String.mk ("JohnSmith".toList ++ ' ' ::
      ("01-06-2023".toList ++ ['.', 'm', 'p', '4']))) =
      some { author := String.mk "JohnSmith".toList,
             title := String.mk "JohnSmith".toList,
             lesson_date := ⟨2023, 6, 1⟩ } :=
  claim_C2_amended "JohnSmith".toList "01-06-2023".toList ⟨2023, 6, 1⟩
    (by decide) (by decide) (by decide) (by decide) (by decide)

/-! ### Claim C4: the current-streak computation -/

theorem streakLoop_mem_spec (s : List Int) :
    ∀ (fuel : Nat) (cur : Int) (i : Nat),
      i < streakLoop s cur fuel → (cur - (i : Int)) ∈ s := by
  intro fuel
  induction fuel with
  | zero =>
    intro cur i h
    simp [streakLoop] at h
  | succ f ih =>
    intro cur i h
    by_cases hm : cur ∈ s
    · rw [show streakLoop s cur (f + 1) = streakLoop s (cur - 1) f + 1 by
        simp [streakLoop, hm]] at h
      cases i with
      | zero => simpa using hm
      | succ j =>
        have hj : j < streakLoop s (cur - 1) f := by omega
        have hmem := ih (cur - 1) j hj
        have heq : cur - 1 - (j : Int) = cur - ((j + 1 : Nat) : Int) := by
          push_cast
          ring
        rwa [heq] at hmem
    · rw [show streakLoop s cur (f + 1) = 0 by simp [streakLoop, hm]] at h
      omega

theorem streakLoop_gap (s : List Int) :
    ∀ (fuel : Nat) (cur : Int),
      streakLoop s cur fuel < fuel →
      (cur - (streakLoop s cur fuel : Int)) ∉ s := by
  intro fuel
  induction fuel with
  | zero =>
    intro cur h
    exact absurd h (Nat.not_lt_zero _)
  | succ f ih =>
    intro cur h
    by_cases hm : cur ∈ s
    · have heq : streakLoop s cur (f + 1) = streakLoop s (cur - 1) f + 1 := by
        simp [streakLoop, hm]
      rw [heq] at h ⊢
      have hlt : streakLoop s (cur - 1) f < f := by omega
      have hgap := ih (cur - 1) hlt
      have harith : cur - 1 - (streakLoop s (cur - 1) f : Int) =
          cur - ((streakLoop s (cur - 1) f + 1 : Nat) : Int) := by
        push_cast
        ring
      rwa [harith] at hgap
    · have heq : streakLoop s cur (f + 1) = 0 := by simp [streakLoop, hm]
      rw [heq]
      simpa using hm

theorem filter_le_pred_lt (s : List Int) (hnd : s.Nodup) (cur : Int) (h : cur ∈ s) :
    (s.filter fun x => decide (x ≤ cur - 1)).length + 1 ≤
      (s.filter fun x => decide (x ≤ cur)).length := by
  induction s with
  | nil => simp at h
  | cons a t ih =>
    rw [List.nodup_cons] at hnd
    by_cases hac : a = cur
    · subst hac
      have hmono : (t.filter fun x => decide (x ≤ a - 1)).length ≤
          (t.filter fun x => decide (x ≤ a)).length := by
        have hsub : t.filter (fun x => decide (x ≤ a - 1)) =
            (t.filter fun x => decide (x ≤ a)).filter fun x => decide (x ≤ a - 1) := by
          rw [List.filter_filter]
          apply List.filter_congr
          intro x _
          by_cases hx : x ≤ a - 1
          · have hxa : x ≤ a := by omega
            simp [hx, hxa]
          · rw [decide_eq_false hx]
            simp
        calc (t.filter fun x => decide (x ≤ a - 1)).length
            = ((t.filter fun x => decide (x ≤ a)).filter
                fun x => decide (x ≤ a - 1)).length := by rw [hsub]
          _ ≤ (t.filter fun x => decide (x ≤ a)).length := List.length_filter_le _ _
      rw [List.filter_cons_of_neg (by simp only [decide_eq_true_eq]; omega),
        List.filter_cons_of_pos (by simp)]
      simp only [List.length_cons]
      omega
    · have hct : cur ∈ t := by
        rcases List.mem_cons.mp h with h1 | h1
        · exact absurd h1.symm hac
        · exact h1
      have hih := ih hnd.2 hct
      by_cases hle : a ≤ cur - 1
      · rw [List.filter_cons_of_pos (by simp only [decide_eq_true_eq]; omega),
          List.filter_cons_of_pos (by simp only [decide_eq_true_eq]; omega)]
        simp only [List.length_cons]
        omega
      · rw [List.filter_cons_of_neg (by simp only [decide_eq_true_eq]; omega),
          List.filter_cons_of_neg (by simp only [decide_eq_true_eq]; omega)]
        exact hih

theorem streakLoop_le_filter (s : List Int) (hnd : s.Nodup) :
    ∀ (fuel : Nat) (cur : Int),
      streakLoop s cur fuel ≤ (s.filter fun x => decide (x ≤ cur)).length := by
  intro fuel
  induction fuel with
  | zero =>
    intro cur
    simp [streakLoop]
  | succ f ih =>
    intro cur
    by_cases hm : cur ∈ s
    · rw [show streakLoop s cur (f + 1) = streakLoop s (cur - 1) f + 1 by
        simp [streakLoop, hm]]
      have h1 := ih (cur - 1)
      have h2 := filter_le_pred_lt s hnd cur hm
      omega
    · rw [show streakLoop s cur (f + 1) = 0 by simp [streakLoop, hm]]
      omega

theorem insertDesc_perm (x : Int) (l : List Int) :
    (insertDesc x l).Perm (x :: l) := by
  induction l with
  | nil => exact List.Perm.refl _
  | cons y ys ih =>
    rw [insertDesc]
    by_cases h : y ≤ x
    · rw [if_pos h]
    · rw [if_neg h]
      exact List.Perm.trans (List.Perm.cons y ih) (List.Perm.swap x y ys)

theorem sortDesc_perm (l : List Int) : (sortDesc l).Perm l := by
  induction l with
  | nil => exact List.Perm.refl _
  | cons a t ih =>
    exact List.Perm.trans (insertDesc_perm a (sortDesc t)) (List.Perm.cons a ih)

theorem mem_sortDesc {x : Int} {l : List Int} : x ∈ sortDesc l ↔ x ∈ l :=
  (sortDesc_perm l).mem_iff

theorem insertDesc_sorted {x : Int} {l : List Int}
    (h : l.Sorted fun a b => b ≤ a) :
    (insertDesc x l).Sorted fun a b => b ≤ a := by
  induction l with
  | nil => simp [insertDesc]
  | cons y ys ih =>
    rw [List.sorted_cons] at h
    rw [insertDesc]
    by_cases hc : y ≤ x
    · rw [if_pos hc, List.sorted_cons]
      refine ⟨?_, List.sorted_cons.mpr h⟩
      intro b hb
      rcases List.mem_cons.mp hb with rfl | hb
      · exact hc
      · exact le_trans (h.1 b hb) hc
    · rw [if_neg hc, List.sorted_cons]
      refine ⟨?_, ih h.2⟩
      intro b hb
      rcases List.mem_cons.mp ((insertDesc_perm x ys).mem_iff.mp hb) with rfl | hb
      · omega
      · exact h.1 b hb

theorem sortDesc_sorted (l : List Int) :
    (sortDesc l).Sorted fun a b => b ≤ a := by
  induction l with
  | nil => simp [sortDesc]
  | cons a t ih => exact insertDesc_sorted ih

theorem mem_activity {days : Nat} {today x : Int} {comps : List Int} :
    x ∈ get_activity_data days today comps ↔ x ∈ comps ∧ today - (days : Int) ≤ x := by
  simp [get_activity_data, List.mem_dedup, List.mem_filter, decide_eq_true_eq]

theorem activity_nodup (days : Nat) (today : Int) (comps : List Int) :
    (get_activity_data days today comps).Nodup :=
  List.nodup_dedup _

theorem sortDesc_head_max {S : List Int} {d0 : Int} {rest : List Int}
    (hsort : sortDesc S = d0 :: rest) {m : Int} (hm : m ∈ S)
    (hmax : ∀ d ∈ S, d ≤ m) : d0 = m := by
  have h1 : d0 ∈ S := by
    rw [← mem_sortDesc, hsort]
    exact List.mem_cons_self d0 rest
  have h2 : m ∈ d0 :: rest := by
    rw [← hsort, mem_sortDesc]
    exact hm
  have hsorted : (d0 :: rest).Sorted fun a b => b ≤ a := by
    rw [← hsort]
    exact sortDesc_sorted S
  rcases List.mem_cons.mp h2 with rfl | h2
  · rfl
  · have hle1 := (List.sorted_cons.mp hsorted).1 m h2
    have hle2 := hmax d0 h1
    omega

/-- The backward walk started one day below the maximum of a duplicate-free
date list computes the length of the maximal initial run: it is at least 1,
every day it covers is present, and the day after it is absent. -/
theorem streakWalk_spec {S : List Int} {d0 : Int} {rest : List Int}
    (hsort : sortDesc S = d0 :: rest) (hnd : S.Nodup) :
    1 ≤ 1 + streakLoop (d0 :: rest) (d0 - 1) (rest.length + 2) ∧
    (∀ i : Nat, i < 1 + streakLoop (d0 :: rest) (d0 - 1) (rest.length + 2) →
      (d0 - (i : Int)) ∈ S) ∧
    (d0 - ((1 + streakLoop (d0 :: rest) (d0 - 1) (rest.length + 2) : Nat) : Int)) ∉ S := by
  have hmem : ∀ x : Int, x ∈ (d0 :: rest) ↔ x ∈ S := by
    intro x
    rw [← hsort, mem_sortDesc]
  have hndS : (d0 :: rest).Nodup := by
    rw [← hsort]
    exact ((sortDesc_perm S).nodup_iff).mpr hnd
  have hfuel : streakLoop (d0 :: rest) (d0 - 1) (rest.length + 2) < rest.length + 2 := by
    have hb := streakLoop_le_filter (d0 :: rest) hndS (rest.length + 2) (d0 - 1)
    have hfl : ((d0 :: rest).filter fun x => decide (x ≤ d0 - 1)).length ≤ rest.length := by
      rw [List.filter_cons_of_neg (by simp only [decide_eq_true_eq]; omega)]
      exact List.length_filter_le _ _
    omega
  refine ⟨by omega, ?_, ?_⟩
  · intro i hi
    cases i with
    | zero =>
      have hd0 : d0 ∈ (d0 :: rest) := List.mem_cons_self d0 rest
      simpa using (hmem d0).mp hd0
    | succ j =>
      have hj : j < streakLoop (d0 :: rest) (d0 - 1) (rest.length + 2) := by omega
      have hmemj := streakLoop_mem_spec (d0 :: rest) (rest.length + 2) (d0 - 1) j hj
      have harith : d0 - 1 - (j : Int) = d0 - ((j + 1 : Nat) : Int) := by
        push_cast
        ring
      rw [harith] at hmemj
      exact (hmem _).mp hmemj
  · have hgap := streakLoop_gap (d0 :: rest) (rest.length + 2) (d0 - 1) hfuel
    have harith : d0 - 1 - (streakLoop (d0 :: rest) (d0 - 1) (rest.length + 2) : Int) =
        d0 - ((1 + streakLoop (d0 :: rest) (d0 - 1) (rest.length + 2) : Nat) : Int) := by
      push_cast
      ring
    rw [harith] at hgap
    intro hc
    exact hgap ((hmem _).mpr hc)

/-- Unfolding of `get_current_streak` once the sorted activity list is
known. -/
theorem get_current_streak_eq (today : Int) (comps : List Int) (d0 : Int)
    (rest : List Int)
    (hsort : sortDesc (get_activity_data 365 today comps) = d0 :: rest) :
    get_current_streak today comps =
      (if d0 = today then 1 + streakLoop (d0 :: rest) (today - 1) (rest.length + 2)
       else if d0 = today - 1 then 1 + streakLoop (d0 :: rest) (today - 2) (rest.length + 2)
       else 0) := by
  have hne : (get_activity_data 365 today comps).isEmpty = false := by
    rcases h : get_activity_data 365 today comps with _ | ⟨a, t⟩
    · rw [h] at hsort
      exact absurd hsort (by simp [sortDesc])
    · rfl
  simp only [get_current_streak, hne, Bool.false_eq_true, if_false, hsort]


/-- Claim C4 (amended): `get_current_streak` returns 0 when the 365-day
activity window holds no completions or when the most recent windowed
completion day is neither today nor yesterday; otherwise it returns the
length of the maximal run of consecutive days, ending at that most recent
day, all carrying completions **within the window** (completions older than
`today - 365` are invisible to the walk, which is what the counterexample
exploits). The spec examples `(today, today-1, today-2) = 3`,
`(today-1) = 1` and `(today-2) = 0` follow. -/
theorem claim_C4_amended (today : Int) (comps : List Int) :
    (get_activity_data 365 today comps = [] → get_current_streak today comps = 0) ∧
    (∀ m ∈ get_activity_data 365 today comps,
      (∀ d ∈ get_activity_data 365 today comps, d ≤ m) →
      ((m ≠ today ∧ m ≠ today - 1) → get_current_streak today comps = 0) ∧
      ((m = today ∨ m = today - 1) →
        1 ≤ get_current_streak today comps ∧
        (∀ i : Nat, i < get_current_streak today comps →
          (m - (i : Int)) ∈ get_activity_data 365 today comps) ∧
        (m - (get_current_streak today comps : Int)) ∉
          get_activity_data 365 today comps)) ∧
    (∀ t : Int, get_current_streak t [t, t - 1, t - 2] = 3 ∧
      get_current_streak t [t - 1] = 1 ∧ get_current_streak t [t - 2] = 0) := by
  have hpart2 : ∀ (td : Int) (cs : List Int), ∀ m ∈ get_activity_data 365 td cs,
      (∀ d ∈ get_activity_data 365 td cs, d ≤ m) →
      ((m ≠ td ∧ m ≠ td - 1) → get_current_streak td cs = 0) ∧
      ((m = td ∨ m = td - 1) →
        1 ≤ get_current_streak td cs ∧
        (∀ i : Nat, i < get_current_streak td cs →
          (m - (i : Int)) ∈ get_activity_data 365 td cs) ∧
        (m - (get_current_streak td cs : Int)) ∉ get_activity_data 365 td cs) := by
    intro td cs m hm hmax
    rcases hsort : sortDesc (get_activity_data 365 td cs) with _ | ⟨d0, rest⟩
    · exfalso
      have hmem := mem_sortDesc.mpr hm
      rw [hsort] at hmem
      exact absurd hmem (List.not_mem_nil m)
    · have hd0 : d0 = m := sortDesc_head_max hsort hm hmax
      subst hd0
      constructor
      · rintro ⟨h1, h2⟩
        rw [get_current_streak_eq td cs d0 rest hsort, if_neg h1, if_neg h2]
      · intro hfresh
        have hspec := streakWalk_spec hsort (activity_nodup 365 td cs)
        rcases hfresh with hf | hf
        · rw [get_current_streak_eq td cs d0 rest hsort, if_pos hf]
          have harg : td - 1 = d0 - 1 := by omega
          rw [harg]
          exact hspec
        · have hne : d0 ≠ td := by omega
          rw [get_current_streak_eq td cs d0 rest hsort, if_neg hne, if_pos hf]
          have harg : td - 2 = d0 - 1 := by omega
          rw [harg]
          exact hspec
  refine ⟨?_, hpart2 today comps, ?_⟩
  · intro h
    simp [get_current_streak, h]
  · intro t
    have hact3 : get_activity_data 365 t [t, t - 1, t - 2] = [t, t - 1, t - 2] := by
      rw [get_activity_data, List.filter_eq_self.mpr, List.dedup_eq_self.mpr]
      · refine List.nodup_cons.mpr ⟨?_, List.nodup_cons.mpr ⟨?_, List.nodup_singleton _⟩⟩
        · simp only [List.mem_cons, List.mem_singleton, List.not_mem_nil]
          intro hc
          rcases hc with hc | hc | hc
          · omega
          · omega
          · exact hc.elim
        · simp only [List.mem_singleton, List.mem_cons, List.not_mem_nil]
          intro hc
          rcases hc with hc | hc
          · omega
          · exact hc.elim
      · intro a ha
        rw [decide_eq_true_eq]
        simp only [List.mem_cons, List.mem_singleton, List.not_mem_nil] at ha
        rcases ha with rfl | rfl | rfl | hc
        · push_cast; omega
        · push_cast; omega
        · push_cast; omega
        · exact absurd hc (by simp)
    have hact1 : get_activity_data 365 t [t - 1] = [t - 1] := by
      rw [get_activity_data, List.filter_eq_self.mpr, List.dedup_eq_self.mpr]
      · exact List.nodup_singleton _
      · intro a ha
        rw [decide_eq_true_eq]
        simp only [List.mem_cons, List.not_mem_nil, or_false] at ha
        subst ha
        push_cast
        omega
    have hact2 : get_activity_data 365 t [t - 2] = [t - 2] := by
      rw [get_activity_data, List.filter_eq_self.mpr, List.dedup_eq_self.mpr]
      · exact List.nodup_singleton _
      · intro a ha
        rw [decide_eq_true_eq]
        simp only [List.mem_cons, List.not_mem_nil, or_false] at ha
        subst ha
        push_cast
        omega
    refine ⟨?_, ?_, ?_⟩
    · have hm : t ∈ get_activity_data 365 t [t, t - 1, t - 2] := by
        rw [hact3]
        exact List.mem_cons_self _ _
      have hmax : ∀ d ∈ get_activity_data 365 t [t, t - 1, t - 2], d ≤ t := by
        rw [hact3]
        intro d hd
        simp only [List.mem_cons, List.mem_singleton, List.not_mem_nil] at hd
        rcases hd with rfl | rfl | rfl | hc
        · omega
        · omega
        · omega
        · exact absurd hc (by simp)
      obtain ⟨h1, hmem, hgap⟩ := (hpart2 t [t, t - 1, t - 2] t hm hmax).2 (Or.inl rfl)
      rw [hact3] at hmem hgap
      set r := get_current_streak t [t, t - 1, t - 2] with hr
      have hub : r < 4 := by
        by_contra hc
        push_neg at hc
        have h3 := hmem 3 (by omega)
        simp only [List.mem_cons, List.mem_singleton, List.not_mem_nil, or_false] at h3
        push_cast at h3
        rcases h3 with h3 | h3 | h3 <;> omega
      interval_cases r
      · exfalso
        simp only [List.mem_cons, List.mem_singleton, List.not_mem_nil, or_false] at hgap
        push_cast at hgap
        omega
      · exfalso
        simp only [List.mem_cons, List.mem_singleton, List.not_mem_nil, or_false] at hgap
        push_cast at hgap
        omega
      · rfl
    · have hm : (t - 1) ∈ get_activity_data 365 t [t - 1] := by
        rw [hact1]
        exact List.mem_cons_self _ _
      have hmax : ∀ d ∈ get_activity_data 365 t [t - 1], d ≤ t - 1 := by
        rw [hact1]
        intro d hd
        simp only [List.mem_cons, List.not_mem_nil, or_false] at hd
        omega
      obtain ⟨h1, hmem, hgap⟩ := (hpart2 t [t - 1] (t - 1) hm hmax).2 (Or.inr rfl)
      rw [hact1] at hmem hgap
      set r := get_current_streak t [t - 1] with hr
      have hub : r < 2 := by
        by_contra hc
        push_neg at hc
        have h2 := hmem 1 (by omega)
        simp only [List.mem_cons, List.not_mem_nil, or_false] at h2
        push_cast at h2
        omega
      interval_cases r
      · rfl
    · have hm : (t - 2) ∈ get_activity_data 365 t [t - 2] := by
        rw [hact2]
        exact List.mem_cons_self _ _
      have hmax : ∀ d ∈ get_activity_data 365 t [t - 2], d ≤ t - 2 := by
        rw [hact2]
        intro d hd
        simp only [List.mem_cons, List.not_mem_nil, or_false] at hd
        omega
      exact (hpart2 t [t - 2] (t - 2) hm hmax).1 (by constructor <;> omega)


/-- Witness for claim C4 (amended): the three spec examples evaluated at a
concrete day. -/
theorem claim_C4_amended_witness :
    get_current_streak 0 [0, 0 - 1, 0 - 2] = 3 ∧
    get_current_streak 0 [0 - 1] = 1 ∧ get_current_streak 0 [0 - 2] = 0 :=
  (claim_C4_amended 0 []).2.2 0

theorem mem_longRun {x : Int} : x ∈ longRun ↔ -366 ≤ x ∧ x ≤ 0 := by
  constructor
  · intro h
    simp only [longRun, List.mem_map] at h
    obtain ⟨i, hi, hx⟩ := h
    rw [List.mem_range] at hi
    omega
  · intro h
    simp only [longRun, List.mem_map]
    refine ⟨(-x).toNat, ?_, ?_⟩
    · rw [List.mem_range]
      omega
    · omega

/-- Counterexample to claim C4 as stated: with completions on all 367 days
`today - 366 .. today`, the claimed value (1 plus the consecutive preceding
completion days) is 367, but `get_current_streak` reports 366 because
`get_activity_data(days=365)` hides the completion at `today - 366` from
the walk. -/
theorem claim_C4_counterexample :
    claimedStreak 0 longRun = 367 ∧ get_current_streak 0 longRun = 366 := by
  constructor
  · have hmem0 : ∀ x : Int, x ∈ longRun.dedup ↔ -366 ≤ x ∧ x ≤ 0 := by
      intro x
      rw [List.mem_dedup, mem_longRun]
    have hm : (0 : Int) ∈ longRun.dedup := (hmem0 0).mpr (by omega)
    rcases hsort : sortDesc longRun.dedup with _ | ⟨d0, rest⟩
    · exfalso
      have hmm := mem_sortDesc.mpr hm
      rw [hsort] at hmm
      exact absurd hmm (List.not_mem_nil _)
    · have hd0 : d0 = 0 := sortDesc_head_max hsort hm (fun d hd => ((hmem0 d).mp hd).2)
      subst hd0
      obtain ⟨h1, hmem, hgap⟩ := streakWalk_spec hsort (List.nodup_dedup longRun)
      have hval : claimedStreak 0 longRun =
          1 + streakLoop (0 :: rest) (0 - 1) (rest.length + 2) := by
        simp only [claimedStreak, hsort]
        simp
      rw [hval]
      generalize hgen : 1 + streakLoop (0 :: rest) (0 - 1) (rest.length + 2) = r
        at hmem hgap ⊢
      have hub : r ≤ 367 := by
        by_contra hc
        push_neg at hc
        have h367 := (hmem0 _).mp (hmem 367 (by omega))
        omega
      have hlb : 367 ≤ r := by
        by_contra hc
        push_neg at hc
        exact hgap ((hmem0 _).mpr ⟨by omega, by omega⟩)
      omega
  · have hmemS : ∀ x : Int, x ∈ get_activity_data 365 0 longRun ↔ -365 ≤ x ∧ x ≤ 0 := by
      intro x
      rw [mem_activity, mem_longRun]
      push_cast
      omega
    have hm : (0 : Int) ∈ get_activity_data 365 0 longRun := (hmemS 0).mpr (by omega)
    rcases hsort : sortDesc (get_activity_data 365 0 longRun) with _ | ⟨d0, rest⟩
    · exfalso
      have hmm := mem_sortDesc.mpr hm
      rw [hsort] at hmm
      exact absurd hmm (List.not_mem_nil _)
    · have hd0 : d0 = 0 := sortDesc_head_max hsort hm (fun d hd => ((hmemS d).mp hd).2)
      subst hd0
      obtain ⟨h1, hmem, hgap⟩ := streakWalk_spec hsort (activity_nodup 365 0 longRun)
      rw [get_current_streak_eq 0 longRun 0 rest hsort, if_pos rfl]
      generalize hgen : 1 + streakLoop (0 :: rest) (0 - 1) (rest.length + 2) = r
        at hmem hgap ⊢
      have hub : r ≤ 366 := by
        by_contra hc
        push_neg at hc
        have h366 := (hmemS _).mp (hmem 366 (by omega))
        omega
      have hlb : 366 ≤ r := by
        by_contra hc
        push_neg at hc
        exact hgap ((hmemS _).mpr ⟨by omega, by omega⟩)
      omega


/-! ### Claim C6: exact-match-ALL tag filtering -/

theorem mem_dedupKeys {x : Nat} {l : List Nat} : x ∈ dedupKeys l ↔ x ∈ l := by
  suffices h : ∀ acc : List Nat,
      (x ∈ l.foldl (fun acc y => if y ∈ acc then acc else acc ++ [y]) acc ↔
        x ∈ acc ∨ x ∈ l) by
    simpa [dedupKeys] using h []
  induction l with
  | nil =>
    intro acc
    simp
  | cons a t ih =>
    intro acc
    rw [List.foldl_cons]
    by_cases hm : a ∈ acc
    · rw [if_pos hm, ih]
      constructor
      · rintro (h | h)
        · exact Or.inl h
        · exact Or.inr (List.mem_cons_of_mem a h)
      · rintro (h | h)
        · exact Or.inl h
        · rcases List.mem_cons.mp h with rfl | h
          · exact Or.inl hm
          · exact Or.inr h
    · rw [if_neg hm, ih]
      simp only [List.mem_append, List.mem_singleton, List.mem_cons]
      tauto

theorem nodup_dedupKeys (l : List Nat) : (dedupKeys l).Nodup := by
  suffices h : ∀ acc : List Nat, acc.Nodup →
      (l.foldl (fun acc y => if y ∈ acc then acc else acc ++ [y]) acc).Nodup by
    exact h [] List.nodup_nil
  induction l with
  | nil =>
    intro acc h
    simpa using h
  | cons a t ih =>
    intro acc h
    rw [List.foldl_cons]
    by_cases hm : a ∈ acc
    · rw [if_pos hm]
      exact ih acc h
    · rw [if_neg hm]
      apply ih
      rw [List.nodup_append]
      exact ⟨h, List.nodup_singleton a, by simpa using hm⟩

theorem insertByDateDesc_perm (x : Lesson) (l : List Lesson) :
    (insertByDateDesc x l).Perm (x :: l) := by
  induction l with
  | nil => exact List.Perm.refl _
  | cons y ys ih =>
    rw [insertByDateDesc]
    by_cases h : dateLe y.lesson_date x.lesson_date
    · rw [if_pos h]
    · rw [if_neg h]
      exact List.Perm.trans (List.Perm.cons y ih) (List.Perm.swap x y ys)

theorem sortByDateDesc_perm (l : List Lesson) : (sortByDateDesc l).Perm l := by
  induction l with
  | nil => exact List.Perm.refl _
  | cons a t ih =>
    exact List.Perm.trans (insertByDateDesc_perm a (sortByDateDesc t))
      (List.Perm.cons a ih)

/-- Claim C6: tag filtering is exact-match-ALL. For every nonempty
duplicate-free tag-id set, `get_lessons_by_tag_ids` returns exactly the
lessons carrying every listed tag (so a lesson with only a proper subset is
never returned), and every row produced by the tag filter of
`get_paginated_lessons` carries every listed tag. -/
theorem claim_C6_tag_all_match (lesson_tags : List (Nat × Nat)) (tag_ids : List Nat)
    (hne : tag_ids ≠ []) (hnd : tag_ids.Nodup) :
    (∀ l : Nat, l ∈ get_lessons_by_tag_ids lesson_tags tag_ids ↔
      ∀ t ∈ tag_ids, (l, t) ∈ lesson_tags) ∧
    (∀ (lessons : List Lesson) (page page_size : Nat) (row : Lesson),
      row ∈ (get_paginated_lessons lessons lesson_tags page page_size tag_ids).1 →
      ∀ t ∈ tag_ids, (row.id, t) ∈ lesson_tags) := by
  have hMmem : ∀ (l y : Nat),
      y ∈ ((lesson_tags.filter fun r => r.2 ∈ tag_ids).filter
            fun r => r.1 = l).map Prod.snd ↔
        (l, y) ∈ lesson_tags ∧ y ∈ tag_ids := by
    intro l y
    simp only [List.mem_map, List.mem_filter, decide_eq_true_eq]
    constructor
    · rintro ⟨r, ⟨⟨hr, hr2⟩, hr1⟩, rfl⟩
      refine ⟨?_, hr2⟩
      rw [← hr1]
      simpa using hr
    · rintro ⟨hm, ht⟩
      exact ⟨(l, y), ⟨⟨hm, ht⟩, rfl⟩, rfl⟩
  have hcount : ∀ l : Nat,
      ((dedupKeys (((lesson_tags.filter fun r => r.2 ∈ tag_ids).filter
          fun r => r.1 = l).map Prod.snd)).length = tag_ids.length ↔
        ∀ t ∈ tag_ids, (l, t) ∈ lesson_tags) := by
    intro l
    constructor
    · intro hlen t ht
      have hsub : (dedupKeys (((lesson_tags.filter fun r => r.2 ∈ tag_ids).filter
          fun r => r.1 = l).map Prod.snd)).toFinset ⊆ tag_ids.toFinset := by
        intro y hy
        rw [List.mem_toFinset] at hy ⊢
        exact ((hMmem l y).mp (mem_dedupKeys.mp hy)).2
      have hcard1 := List.toFinset_card_of_nodup
        (nodup_dedupKeys (((lesson_tags.filter fun r => r.2 ∈ tag_ids).filter
          fun r => r.1 = l).map Prod.snd))
      have hcard2 := List.toFinset_card_of_nodup hnd
      have heq := Finset.eq_of_subset_of_card_le hsub (by omega)
      have htm : t ∈ dedupKeys (((lesson_tags.filter fun r => r.2 ∈ tag_ids).filter
          fun r => r.1 = l).map Prod.snd) := by
        rw [← List.mem_toFinset, heq, List.mem_toFinset]
        exact ht
      exact ((hMmem l t).mp (mem_dedupKeys.mp htm)).1
    · intro hall
      have hmm : ∀ y, y ∈ dedupKeys (((lesson_tags.filter fun r => r.2 ∈ tag_ids).filter
          fun r => r.1 = l).map Prod.snd) ↔ y ∈ tag_ids := by
        intro y
        rw [mem_dedupKeys, hMmem]
        constructor
        · exact And.right
        · intro hy
          exact ⟨hall y hy, hy⟩
      have heq : (dedupKeys (((lesson_tags.filter fun r => r.2 ∈ tag_ids).filter
          fun r => r.1 = l).map Prod.snd)).toFinset = tag_ids.toFinset := by
        ext y
        rw [List.mem_toFinset, List.mem_toFinset, hmm y]
      have hcard1 := List.toFinset_card_of_nodup
        (nodup_dedupKeys (((lesson_tags.filter fun r => r.2 ∈ tag_ids).filter
          fun r => r.1 = l).map Prod.snd))
      have hcard2 := List.toFinset_card_of_nodup hnd
      rw [heq] at hcard1
      omega
  have hempty : tag_ids.isEmpty = false := by
    rcases tag_ids with _ | ⟨a, t⟩
    · exact absurd rfl hne
    · rfl
  constructor
  · intro l
    rw [get_lessons_by_tag_ids]
    rw [if_neg (by simp [hempty])]
    rw [List.mem_filter]
    constructor
    · rintro ⟨_, hcond⟩
      rw [decide_eq_true_eq] at hcond
      exact (hcount l).mp hcond
    · intro hall
      refine ⟨?_, by rw [decide_eq_true_eq]; exact (hcount l).mpr hall⟩
      rcases tag_ids with _ | ⟨t0, ts⟩
      · exact absurd rfl hne
      · rw [mem_dedupKeys]
        simp only [List.mem_map, List.mem_filter, decide_eq_true_eq]
        exact ⟨(l, t0), ⟨hall t0 (List.mem_cons_self t0 ts),
          List.mem_cons_self t0 ts⟩, rfl⟩
  · intro lessons page page_size row hrow t ht
    rw [get_paginated_lessons] at hrow
    simp only [hempty, Bool.false_eq_true, if_false] at hrow
    have hmem1 : row ∈ sortByDateDesc ((lessons.filter fun l =>
        l.status ≠ Status.Archived).filter fun l =>
        decide ((dedupKeys (((lesson_tags.filter fun r => r.2 ∈ tag_ids).filter
          fun r => r.1 = l.id).map Prod.snd)).length = tag_ids.length ∧
          ∃ t ∈ tag_ids, (l.id, t) ∈ lesson_tags)) :=
      List.mem_of_mem_drop (List.mem_of_mem_take hrow)
    have hmem2 := (sortByDateDesc_perm _).mem_iff.mp hmem1
    rw [List.mem_filter, decide_eq_true_eq] at hmem2
    exact (hcount row.id).mp hmem2.2.1 t ht


/-- Witness for claim C6: lesson 1 carries both tags 10 and 20 and is
returned; lesson 2 carries only tag 10 and is not. -/
theorem claim_C6_tag_all_match_witness :
    1 ∈ get_lessons_by_tag_ids [(1, 10), (1, 20), (2, 10)] [10, 20] ∧
    2 ∉ get_lessons_by_tag_ids [(1, 10), (1, 20), (2, 10)] [10, 20] := by
  have h := claim_C6_tag_all_match [(1, 10), (1, 20), (2, 10)] [10, 20]
    (by decide) (by decide)
  refine ⟨(h.1 1).mpr (by decide), fun hc => ?_⟩
  have h20 := (h.1 2).mp hc 20 (by decide)
  exact absurd h20 (by decide)

/-! ### Claim C7: most consistent week -/

theorem bestWeekFold_append (ws : List (String × List Nat)) (w : String × List Nat) :
    bestWeekFold (ws ++ [w]) =
      (if 3 ≤ w.2.length then
        match bestWeekFold ws with
        | none => some (w.1, varianceQ w.2, avgQ w.2)
        | some b => if varianceQ w.2 < b.2.1 then some (w.1, varianceQ w.2, avgQ w.2)
                    else some b
       else bestWeekFold ws) := by
  rw [bestWeekFold, bestWeekFold, List.foldl_append, List.foldl_cons, List.foldl_nil]

/-- The selection loop keeps the first-encountered week among those of
minimal variance: the result splits the qualifying list into a strictly
greater prefix, the winner, and a not-smaller remainder. -/
theorem bestWeekFold_spec (ws : List (String × List Nat)) :
    (qualifyingWeeks ws = [] → bestWeekFold ws = none) ∧
    (qualifyingWeeks ws ≠ [] →
      ∃ l1 p l2, qualifyingWeeks ws = l1 ++ p :: l2 ∧
        bestWeekFold ws = some (p.1, varianceQ p.2, avgQ p.2) ∧
        (∀ q ∈ qualifyingWeeks ws, varianceQ p.2 ≤ varianceQ q.2) ∧
        (∀ q ∈ l1, varianceQ p.2 < varianceQ q.2)) := by
  induction ws using List.reverseRecOn with
  | nil => exact ⟨fun _ => rfl, fun hne => absurd rfl hne⟩
  | append_singleton l w ih =>
    have hq : qualifyingWeeks (l ++ [w]) =
        qualifyingWeeks l ++ qualifyingWeeks [w] := by
      simp [qualifyingWeeks, List.filter_append]
    by_cases hw3 : 3 ≤ w.2.length
    · have hq1 : qualifyingWeeks [w] = [w] := by simp [qualifyingWeeks, hw3]
      rw [hq1] at hq
      rcases hql : qualifyingWeeks l with _ | ⟨q0, qs0⟩
      · have hbl := ih.1 hql
        constructor
        · intro hc
          rw [hq, hql] at hc
          simp at hc
        · intro _
          refine ⟨[], w, [], by rw [hq, hql], ?_, ?_, by simp⟩
          · rw [bestWeekFold_append, if_pos hw3, hbl]
          · intro q hq2
            rw [hq, hql] at hq2
            simp only [List.nil_append, List.mem_singleton] at hq2
            subst hq2
            exact le_refl _
      · obtain ⟨l1, p, l2, hsplit, hbest, hmin, hstrict⟩ :=
          ih.2 (by rw [hql]; simp)
        constructor
        · intro hc
          rw [hq] at hc
          simp at hc
        · intro _
          by_cases hlt : varianceQ w.2 < varianceQ p.2
          · refine ⟨qualifyingWeeks l, w, [], by rw [hq], ?_, ?_, ?_⟩
            · rw [bestWeekFold_append, if_pos hw3, hbest]
              simp only [hlt, if_true]
            · intro q hq2
              rw [hq] at hq2
              rcases List.mem_append.mp hq2 with h | h
              · exact le_trans (le_of_lt hlt) (hmin q h)
              · simp only [List.mem_singleton] at h
                subst h
                exact le_refl _
            · intro q hq2
              exact lt_of_lt_of_le hlt (hmin q hq2)
          · refine ⟨l1, p, l2 ++ [w], by rw [hq, hsplit]; simp, ?_, ?_, hstrict⟩
            · rw [bestWeekFold_append, if_pos hw3, hbest]
              simp only [hlt, if_false]
            · intro q hq2
              rw [hq] at hq2
              rcases List.mem_append.mp hq2 with h | h
              · exact hmin q h
              · simp only [List.mem_singleton] at h
                subst h
                exact le_of_not_lt hlt
    · have hq0 : qualifyingWeeks [w] = [] := by simp [qualifyingWeeks, hw3]
      have hqeq : qualifyingWeeks (l ++ [w]) = qualifyingWeeks l := by
        rw [hq, hq0, List.append_nil]
      have hbw : bestWeekFold (l ++ [w]) = bestWeekFold l := by
        rw [bestWeekFold_append, if_neg hw3]
      rw [hqeq, hbw]
      exact ih

/-- Every week key produced by the grouping dict comes from some input
row. -/
theorem buildWeeks_week_mem (rows : List WeekRow) :
    ∀ p ∈ buildWeeks rows, ∃ r ∈ rows, p.1 = r.week := by
  suffices h : ∀ acc : List (String × List Nat),
      ∀ p ∈ rows.foldl (fun acc r =>
        if (acc.map Prod.fst).contains r.week then
          acc.map fun q => if q.1 = r.week then (q.1, q.2 ++ [r.count]) else q
        else acc ++ [(r.week, [r.count])]) acc,
      p.1 ∈ acc.map Prod.fst ∨ ∃ r ∈ rows, p.1 = r.week by
    intro p hp
    rcases h [] p hp with hc | hc
    · simp at hc
    · exact hc
  induction rows with
  | nil =>
    intro acc p hp
    rw [List.foldl_nil] at hp
    exact Or.inl (List.mem_map_of_mem Prod.fst hp)
  | cons r rest ih =>
    intro acc p hp
    rw [List.foldl_cons] at hp
    rcases ih _ p hp with hc | hc
    · by_cases hmem : ((acc.map Prod.fst).contains r.week) = true
      · rw [if_pos hmem] at hc
        have hkeys : ((acc.map fun q =>
            if q.1 = r.week then (q.1, q.2 ++ [r.count]) else q).map Prod.fst) =
            acc.map Prod.fst := by
          rw [List.map_map]
          apply List.map_congr_left
          intro q _
          by_cases hq : q.1 = r.week <;> simp [hq]
        rw [hkeys] at hc
        exact Or.inl hc
      · rw [if_neg hmem] at hc
        rw [List.map_append, List.mem_append] at hc
        rcases hc with hc | hc
        · exact Or.inl hc
        · simp only [List.map_cons, List.map_nil, List.mem_singleton] at hc
          exact Or.inr ⟨r, List.mem_cons_self r rest, hc⟩
    · obtain ⟨r2, hr2, he⟩ := hc
      exact Or.inr ⟨r2, List.mem_cons_of_mem r hr2, he⟩

/-- Claim C7: `get_most_consistent_week` considers only weeks with at least
3 distinct active days; among them it returns the one with the lowest
variance of daily counts, keeping the first encountered on equal variance
(everything strictly earlier in iteration order has strictly larger
variance); with no qualifying week it returns the null/zero result. The
hypothesis that week keys are nonempty strings reflects that `strftime`
never yields an empty string. -/
theorem claim_C7_most_consistent (rows : List WeekRow)
    (hw : ∀ r ∈ rows, r.week ≠ "") :
    (qualifyingWeeks (buildWeeks rows) = [] →
      get_most_consistent_week rows = ⟨none, 0, 0⟩) ∧
    (qualifyingWeeks (buildWeeks rows) ≠ [] →
      ∃ l1 p l2, qualifyingWeeks (buildWeeks rows) = l1 ++ p :: l2 ∧
        get_most_consistent_week rows =
          ⟨some p.1, varianceQ p.2, round1 (avgQ p.2)⟩ ∧
        (∀ q ∈ qualifyingWeeks (buildWeeks rows),
          varianceQ p.2 ≤ varianceQ q.2) ∧
        (∀ q ∈ l1, varianceQ p.2 < varianceQ q.2)) := by
  have hspec := bestWeekFold_spec (buildWeeks rows)
  constructor
  · intro h
    rw [get_most_consistent_week, hspec.1 h]
  · intro h
    obtain ⟨l1, p, l2, hsplit, hbest, hmin, hstrict⟩ := hspec.2 h
    have hp_mem : p ∈ buildWeeks rows := by
      have hq : p ∈ qualifyingWeeks (buildWeeks rows) := by
        rw [hsplit]
        simp
      exact List.mem_of_mem_filter hq
    have hpweek : p.1 ≠ "" := by
      obtain ⟨r, hr, heq⟩ := buildWeeks_week_mem rows p hp_mem
      rw [heq]
      exact hw r hr
    refine ⟨l1, p, l2, hsplit, ?_, hmin, hstrict⟩
    rw [get_most_consistent_week, hbest]
    simp [hpweek]

/-- Witness for claim C7: a single one-day week does not qualify, so the
zero result is returned. -/
theorem claim_C7_most_consistent_witness :
    get_most_consistent_week [⟨"2023-01", "2023-01-02", 1⟩] = ⟨none, 0, 0⟩ :=
  (claim_C7_most_consistent [⟨"2023-01", "2023-01-02", 1⟩] (by decide)).1 (by decide)


/-! ### Sync engine characterization (claims C1, C3, C5, C10) -/

theorem classify_go (parse : String → Option Parsed) (rows : List Lesson)
    (fd : List FileRec) :
    ∀ st : ClassifyState,
      fd.foldl (classifyStep parse rows) st =
        ⟨st.errors + errorsOf parse fd,
         obsFrom parse st.current_hashes fd,
         st.to_insert ++ toInsertOf parse rows fd,
         st.to_update ++ toUpdateOf parse rows fd,
         st.unchanged + unchangedOf parse rows fd⟩ := by
  induction fd with
  | nil =>
    intro st
    simp [errorsOf, toInsertOf, toUpdateOf, unchangedOf, obsFrom]
  | cons f fd ih =>
    intro st
    rw [List.foldl_cons, ih]
    rcases hp : parse f.filename with _ | p
    · have hstep : classifyStep parse rows st f = { st with errors := st.errors + 1 } := by
        simp [classifyStep, hp]
      have he : errorsOf parse (f :: fd) = errorsOf parse fd + 1 := by
        simp [errorsOf, List.filter_cons, hp]
      have hi : toInsertOf parse rows (f :: fd) = toInsertOf parse rows fd := by
        simp [toInsertOf, List.filterMap_cons, hp]
      have hu : toUpdateOf parse rows (f :: fd) = toUpdateOf parse rows fd := by
        simp [toUpdateOf, List.filterMap_cons, hp]
      have hn : unchangedOf parse rows (f :: fd) = unchangedOf parse rows fd := by
        simp [unchangedOf, List.filter_cons, hp]
      have ho : obsFrom parse st.current_hashes (f :: fd) =
          obsFrom parse st.current_hashes fd := by
        simp [obsFrom, List.foldl_cons, hp]
      rw [hstep, he, hi, hu, hn, ho]
      simp only [ClassifyState.mk.injEq, List.append_assoc, List.cons_append, List.nil_append, List.singleton_append, true_and, and_true]
      try omega
    · have ho : obsFrom parse st.current_hashes (f :: fd) =
          obsFrom parse (addHash st.current_hashes f.file_hash) fd := by
        simp [obsFrom, List.foldl_cons, hp]
      have he : errorsOf parse (f :: fd) = errorsOf parse fd := by
        simp [errorsOf, List.filter_cons, hp]
      rcases hl : lookupHash rows f.file_hash with _ | ex
      · have hstep : classifyStep parse rows st f =
            { st with current_hashes := addHash st.current_hashes f.file_hash,
                      to_insert := st.to_insert ++ [mkInsertRec p f] } := by
          simp [classifyStep, hp, hl]
        have hi : toInsertOf parse rows (f :: fd) =
            mkInsertRec p f :: toInsertOf parse rows fd := by
          simp [toInsertOf, List.filterMap_cons, hp, hl]
        have hu : toUpdateOf parse rows (f :: fd) = toUpdateOf parse rows fd := by
          simp [toUpdateOf, List.filterMap_cons, hp, hl]
        have hn : unchangedOf parse rows (f :: fd) = unchangedOf parse rows fd := by
          simp [unchangedOf, List.filter_cons, hp, hl]
        rw [hstep, he, hi, hu, hn, ho]
        simp only [ClassifyState.mk.injEq, List.append_assoc, List.cons_append, List.nil_append, List.singleton_append, true_and, and_true]
        try omega
      · by_cases hneed : needsUpdate ex f = true
        · have hstep : classifyStep parse rows st f =
              { st with current_hashes := addHash st.current_hashes f.file_hash,
                        to_update := st.to_update ++ [mkUpdateRec ex f] } := by
            simp [classifyStep, hp, hl, hneed]
          have hi : toInsertOf parse rows (f :: fd) = toInsertOf parse rows fd := by
            simp [toInsertOf, List.filterMap_cons, hp, hl]
          have hu : toUpdateOf parse rows (f :: fd) =
              mkUpdateRec ex f :: toUpdateOf parse rows fd := by
            simp [toUpdateOf, List.filterMap_cons, hp, hl, hneed]
          have hn : unchangedOf parse rows (f :: fd) = unchangedOf parse rows fd := by
            simp [unchangedOf, List.filter_cons, hp, hl, hneed]
          rw [hstep, he, hi, hu, hn, ho]
          simp only [ClassifyState.mk.injEq, List.append_assoc, List.cons_append, List.nil_append, List.singleton_append, true_and, and_true]
          try omega
        · have hneed2 : needsUpdate ex f = false := by
            cases hx : needsUpdate ex f
            · rfl
            · exact absurd hx hneed
          have hstep : classifyStep parse rows st f =
              { st with current_hashes := addHash st.current_hashes f.file_hash,
                        unchanged := st.unchanged + 1 } := by
            simp [classifyStep, hp, hl, hneed2]
          have hi : toInsertOf parse rows (f :: fd) = toInsertOf parse rows fd := by
            simp [toInsertOf, List.filterMap_cons, hp, hl]
          have hu : toUpdateOf parse rows (f :: fd) = toUpdateOf parse rows fd := by
            simp [toUpdateOf, List.filterMap_cons, hp, hl, hneed2]
          have hn : unchangedOf parse rows (f :: fd) =
              unchangedOf parse rows fd + 1 := by
            simp [unchangedOf, List.filter_cons, hp, hl, hneed2]
          rw [hstep, he, hi, hu, hn, ho]
          simp only [ClassifyState.mk.injEq, List.append_assoc, List.cons_append, List.nil_append, List.singleton_append, true_and, and_true]
          try omega

theorem classifyFiles_eq (parse : String → Option Parsed) (rows : List Lesson)
    (fd : List FileRec) :
    classifyFiles parse rows fd =
      ⟨errorsOf parse fd, observed_hashes parse fd, toInsertOf parse rows fd,
       toUpdateOf parse rows fd, unchangedOf parse rows fd⟩ := by
  rw [classifyFiles, classify_go]
  simp [observed_hashes]

theorem mem_addHash {s : List String} {h x : String} :
    x ∈ addHash s h ↔ x ∈ s ∨ x = h := by
  rw [addHash]
  by_cases hm : h ∈ s
  · rw [if_pos hm]
    constructor
    · exact Or.inl
    · rintro (hx | rfl)
      · exact hx
      · exact hm
  · rw [if_neg hm]
    simp

theorem mem_obsFrom (parse : String → Option Parsed) (fd : List FileRec) :
    ∀ (s : List String) (h : String),
      h ∈ obsFrom parse s fd ↔
        h ∈ s ∨ ∃ f ∈ fd, (parse f.filename).isSome = true ∧ f.file_hash = h := by
  induction fd with
  | nil =>
    intro s h
    simp [obsFrom]
  | cons f fd ih =>
    intro s h
    rcases hp : parse f.filename with _ | p
    · have ho : obsFrom parse s (f :: fd) = obsFrom parse s fd := by
        simp [obsFrom, List.foldl_cons, hp]
      rw [ho, ih]
      constructor
      · rintro (hx | ⟨g, hg, hgs, hgh⟩)
        · exact Or.inl hx
        · exact Or.inr ⟨g, List.mem_cons_of_mem f hg, hgs, hgh⟩
      · rintro (hx | ⟨g, hg, hgs, hgh⟩)
        · exact Or.inl hx
        · rcases List.mem_cons.mp hg with rfl | hg
          · rw [hp] at hgs
            exact absurd hgs (by simp)
          · exact Or.inr ⟨g, hg, hgs, hgh⟩
    · have ho : obsFrom parse s (f :: fd) =
          obsFrom parse (addHash s f.file_hash) fd := by
        simp [obsFrom, List.foldl_cons, hp]
      rw [ho, ih, mem_addHash]
      constructor
      · rintro ((hx | rfl) | ⟨g, hg, hgs, hgh⟩)
        · exact Or.inl hx
        · exact Or.inr ⟨f, List.mem_cons_self f fd, by simp [hp], rfl⟩
        · exact Or.inr ⟨g, List.mem_cons_of_mem f hg, hgs, hgh⟩
      · rintro (hx | ⟨g, hg, hgs, hgh⟩)
        · exact Or.inl (Or.inl hx)
        · rcases List.mem_cons.mp hg with rfl | hg
          · exact Or.inl (Or.inr hgh.symm)
          · exact Or.inr ⟨g, hg, hgs, hgh⟩

theorem mem_observed (parse : String → Option Parsed) (fd : List FileRec)
    (h : String) :
    h ∈ observed_hashes parse fd ↔
      ∃ f ∈ fd, (parse f.filename).isSome = true ∧ f.file_hash = h := by
  rw [observed_hashes, mem_obsFrom]
  simp

theorem lookupHash_none_iff {rows : List Lesson} {h : String} :
    lookupHash rows h = none ↔ ∀ row ∈ rows, row.file_hash ≠ h := by
  induction rows using List.reverseRecOn with
  | nil => simp [lookupHash]
  | append_singleton l r ih =>
    rw [lookupHash, List.foldl_append, List.foldl_cons, List.foldl_nil]
    by_cases hr : r.file_hash = h
    · rw [if_pos hr]
      constructor
      · intro hc
        exact absurd hc (by simp)
      · intro hall
        exact absurd hr (hall r (by simp))
    · rw [if_neg hr]
      rw [show (List.foldl (fun acc row => if row.file_hash = h then some row else acc)
        none l) = lookupHash l h from rfl, ih]
      constructor
      · intro hall row hrow
        rcases List.mem_append.mp hrow with hm | hm
        · exact hall row hm
        · simp only [List.mem_singleton] at hm
          subst hm
          exact hr
      · intro hall row hrow
        exact hall row (List.mem_append.mpr (Or.inl hrow))

theorem lookupHash_mem : ∀ {rows : List Lesson} {h : String} {ex : Lesson},
    lookupHash rows h = some ex → ex ∈ rows ∧ ex.file_hash = h := by
  intro rows
  induction rows using List.reverseRecOn with
  | nil =>
    intro h ex hfound
    exact absurd hfound (by simp [lookupHash])
  | append_singleton l r ih =>
    intro h ex hfound
    rw [lookupHash, List.foldl_append, List.foldl_cons, List.foldl_nil] at hfound
    by_cases hr : r.file_hash = h
    · rw [if_pos hr] at hfound
      cases hfound
      exact ⟨List.mem_append.mpr (Or.inr (by simp)), hr⟩
    · rw [if_neg hr] at hfound
      have hres := ih hfound
      exact ⟨List.mem_append.mpr (Or.inl hres.1), hres.2⟩

theorem lookupHash_unique : ∀ {rows : List Lesson},
    (rows.map Lesson.file_hash).Nodup → ∀ {h : String} {row : Lesson},
    row ∈ rows → row.file_hash = h → lookupHash rows h = some row := by
  intro rows
  induction rows using List.reverseRecOn with
  | nil =>
    intro _ h row hrow _
    exact absurd hrow (List.not_mem_nil row)
  | append_singleton l r ih =>
    intro hnd h row hrow hh
    rw [List.map_append, List.nodup_append] at hnd
    rw [lookupHash, List.foldl_append, List.foldl_cons, List.foldl_nil]
    rcases List.mem_append.mp hrow with hm | hm
    · have hhl : h ∈ l.map Lesson.file_hash := by
        rw [← hh]
        exact List.mem_map_of_mem Lesson.file_hash hm
      have hr : r.file_hash ≠ h := by
        intro hc
        exact hnd.2.2 hhl (by simp [hc])
      rw [if_neg hr]
      exact ih hnd.1 hm hh
    · simp only [List.mem_singleton] at hm
      subst hm
      rw [if_pos hh]


theorem applyInserts_eq (ins : List InsertRec) :
    ∀ db : DB, applyInserts db ins =
      ⟨db.rows ++ insRows db.nextId ins, db.nextId + ins.length⟩ := by
  induction ins with
  | nil =>
    intro db
    simp [applyInserts, insRows]
  | cons r rest ih =>
    intro db
    rw [applyInserts, ih]
    simp only [DB.mk.injEq, insRows]
    constructor
    · simp
    · simp
      omega

theorem insRows_id_ge (ins : List InsertRec) :
    ∀ n : Nat, ∀ row ∈ insRows n ins, n ≤ row.id := by
  induction ins with
  | nil =>
    intro n row hrow
    exact absurd hrow (List.not_mem_nil row)
  | cons r rest ih =>
    intro n row hrow
    rcases List.mem_cons.mp hrow with rfl | hrow
    · exact le_refl _
    · have := ih (n + 1) row hrow
      omega

theorem insRows_shape (ins : List InsertRec) :
    ∀ n : Nat, ∀ row ∈ insRows n ins, ∃ r ∈ ins, row = insertLesson row.id r := by
  induction ins with
  | nil =>
    intro n row hrow
    exact absurd hrow (List.not_mem_nil row)
  | cons r rest ih =>
    intro n row hrow
    rcases List.mem_cons.mp hrow with rfl | hrow
    · exact ⟨r, List.mem_cons_self r rest, rfl⟩
    · obtain ⟨r2, hr2, he⟩ := ih (n + 1) row hrow
      exact ⟨r2, List.mem_cons_of_mem r hr2, he⟩

theorem insRows_of_mem (ins : List InsertRec) :
    ∀ (n : Nat) (r : InsertRec), r ∈ ins →
      ∃ m, n ≤ m ∧ insertLesson m r ∈ insRows n ins := by
  induction ins with
  | nil =>
    intro n r hr
    exact absurd hr (List.not_mem_nil r)
  | cons r0 rest ih =>
    intro n r hr
    rcases List.mem_cons.mp hr with rfl | hr
    · exact ⟨n, le_refl n, List.mem_cons_self _ _⟩
    · obtain ⟨m, hm, hmem⟩ := ih (n + 1) r hr
      exact ⟨m, by omega, List.mem_cons_of_mem _ hmem⟩

theorem insRows_hashes (ins : List InsertRec) :
    ∀ n : Nat, (insRows n ins).map Lesson.file_hash = ins.map InsertRec.file_hash := by
  induction ins with
  | nil => intro n; rfl
  | cons r rest ih =>
    intro n
    simp only [insRows, List.map_cons, ih (n + 1)]
    rfl

theorem applyUpdates_eq_map (us : List UpdateRec) :
    ∀ rows : List Lesson, applyUpdates rows us = rows.map (updFold us) := by
  induction us with
  | nil =>
    intro rows
    rw [applyUpdates, List.foldl_nil]
    have hmap : rows.map (updFold []) = rows.map id := List.map_congr_left fun a _ => rfl
    rw [hmap, List.map_id]
  | cons u us ih =>
    intro rows
    rw [applyUpdates, List.foldl_cons,
      show List.foldl applyUpdate (applyUpdate rows u) us =
        applyUpdates (applyUpdate rows u) us from rfl,
      ih, applyUpdate, List.map_map]
    apply List.map_congr_left
    intro row _
    rfl

theorem updFold_id (us : List UpdateRec) :
    ∀ row : Lesson, (updFold us row).id = row.id := by
  induction us with
  | nil => intro row; rfl
  | cons u us ih =>
    intro row
    rw [updFold, List.foldl_cons]
    by_cases h : row.id = u.id
    · rw [if_pos h]
      rw [show List.foldl (fun r u => if r.id = u.id then updLesson u r else r)
        (updLesson u row) us = updFold us (updLesson u row) from rfl, ih]
      rfl
    · rw [if_neg h]
      exact ih row

theorem updFold_hash (us : List UpdateRec) :
    ∀ row : Lesson, (updFold us row).file_hash = row.file_hash := by
  induction us with
  | nil => intro row; rfl
  | cons u us ih =>
    intro row
    rw [updFold, List.foldl_cons]
    by_cases h : row.id = u.id
    · rw [if_pos h]
      rw [show List.foldl (fun r u => if r.id = u.id then updLesson u r else r)
        (updLesson u row) us = updFold us (updLesson u row) from rfl, ih]
      rfl
    · rw [if_neg h]
      exact ih row

theorem updFold_status (us : List UpdateRec) :
    ∀ row : Lesson, (updFold us row).status = row.status := by
  induction us with
  | nil => intro row; rfl
  | cons u us ih =>
    intro row
    rw [updFold, List.foldl_cons]
    by_cases h : row.id = u.id
    · rw [if_pos h]
      rw [show List.foldl (fun r u => if r.id = u.id then updLesson u r else r)
        (updLesson u row) us = updFold us (updLesson u row) from rfl, ih]
      rfl
    · rw [if_neg h]
      exact ih row

theorem updFold_of_no_match (us : List UpdateRec) :
    ∀ row : Lesson, (∀ u ∈ us, u.id ≠ row.id) → updFold us row = row := by
  induction us with
  | nil => intro row _; rfl
  | cons u us ih =>
    intro row h
    rw [updFold, List.foldl_cons]
    rw [if_neg (fun hc => h u (List.mem_cons_self u us) hc.symm)]
    exact ih row fun v hv => h v (List.mem_cons_of_mem u hv)

theorem updFold_single {l1 l2 : List UpdateRec} {u : UpdateRec} {row : Lesson}
    (h1 : ∀ v ∈ l1, v.id ≠ row.id) (hu : row.id = u.id)
    (h2 : ∀ v ∈ l2, v.id ≠ row.id) :
    updFold (l1 ++ u :: l2) row = updLesson u row := by
  rw [updFold, List.foldl_append,
    show l1.foldl (fun r u => if r.id = u.id then updLesson u r else r) row =
      updFold l1 row from rfl,
    updFold_of_no_match l1 row h1, List.foldl_cons, if_pos hu,
    show l2.foldl (fun r u => if r.id = u.id then updLesson u r else r)
      (updLesson u row) = updFold l2 (updLesson u row) from rfl]
  apply updFold_of_no_match
  intro v hv
  have hid : (updLesson u row).id = row.id := rfl
  rw [hid]
  exact h2 v hv

theorem archiveRow_id (cur : List String) (row : Lesson) :
    (archiveRow cur row).id = row.id := by
  rw [archiveRow]
  by_cases h : row.file_hash ∉ cur ∧ row.status ≠ Status.Archived
  · rw [if_pos h]
  · rw [if_neg h]

theorem archiveRow_hash (cur : List String) (row : Lesson) :
    (archiveRow cur row).file_hash = row.file_hash := by
  rw [archiveRow]
  by_cases h : row.file_hash ∉ cur ∧ row.status ≠ Status.Archived
  · rw [if_pos h]
  · rw [if_neg h]

theorem archiveRow_of_mem {cur : List String} {row : Lesson}
    (h : row.file_hash ∈ cur) : archiveRow cur row = row := by
  rw [archiveRow, if_neg]
  intro hc
  exact hc.1 h

theorem archiveRow_status (cur : List String) (row : Lesson) :
    (archiveRow cur row).file_hash ∈ cur ∨ (archiveRow cur row).status = Status.Archived := by
  rw [archiveRow]
  by_cases h : row.file_hash ∉ cur ∧ row.status ≠ Status.Archived
  · rw [if_pos h]
    exact Or.inr rfl
  · rw [if_neg h]
    rw [not_and_or, not_not, not_not] at h
    exact h

theorem archivedCount_zero {cur : List String} {rows : List Lesson}
    (h : ∀ row ∈ rows, row.file_hash ∈ cur ∨ row.status = Status.Archived) :
    archivedCount cur rows = 0 := by
  rw [archivedCount, List.length_eq_zero, List.filter_eq_nil_iff]
  intro row hrow
  simp only [decide_eq_true_eq, not_and_or, not_not]
  rcases h row hrow with hc | hc
  · exact Or.inl hc
  · exact Or.inr hc


theorem toInsertOf_mem_iff {parse : String → Option Parsed} {rows : List Lesson}
    {fd : List FileRec} {r : InsertRec} :
    r ∈ toInsertOf parse rows fd ↔
      ∃ f ∈ fd, ∃ p, parse f.filename = some p ∧
        lookupHash rows f.file_hash = none ∧ r = mkInsertRec p f := by
  rw [toInsertOf, List.mem_filterMap]
  constructor
  · rintro ⟨f, hf, heq⟩
    rcases hp : parse f.filename with _ | p
    · simp only [hp] at heq
      exact absurd heq (by simp)
    · simp only [hp] at heq
      rcases hl : lookupHash rows f.file_hash with _ | ex
      · simp only [hl, Option.some.injEq] at heq
        exact ⟨f, hf, p, hp, hl, heq.symm⟩
      · simp only [hl] at heq
        exact absurd heq (by simp)
  · rintro ⟨f, hf, p, hp, hl, rfl⟩
    refine ⟨f, hf, ?_⟩
    simp only [hp, hl]

theorem toUpdateOf_mem_iff {parse : String → Option Parsed} {rows : List Lesson}
    {fd : List FileRec} {u : UpdateRec} :
    u ∈ toUpdateOf parse rows fd ↔
      ∃ f ∈ fd, ∃ p ex, parse f.filename = some p ∧
        lookupHash rows f.file_hash = some ex ∧ needsUpdate ex f = true ∧
        u = mkUpdateRec ex f := by
  rw [toUpdateOf, List.mem_filterMap]
  constructor
  · rintro ⟨f, hf, heq⟩
    rcases hp : parse f.filename with _ | p
    · simp only [hp] at heq
      exact absurd heq (by simp)
    · simp only [hp] at heq
      rcases hl : lookupHash rows f.file_hash with _ | ex
      · simp only [hl] at heq
        exact absurd heq (by simp)
      · simp only [hl] at heq
        by_cases hne : needsUpdate ex f = true
        · rw [if_pos hne] at heq
          simp only [Option.some.injEq] at heq
          exact ⟨f, hf, p, ex, hp, hl, hne, heq.symm⟩
        · rw [if_neg hne] at heq
          exact absurd heq (by simp)
  · rintro ⟨f, hf, p, ex, hp, hl, hne, rfl⟩
    refine ⟨f, hf, ?_⟩
    simp only [hp, hl, if_pos hne]

theorem toInsertOf_hashes_sublist (parse : String → Option Parsed)
    (rows : List Lesson) (fd : List FileRec) :
    ((toInsertOf parse rows fd).map InsertRec.file_hash).Sublist
      ((validRecs parse fd).map FileRec.file_hash) := by
  induction fd with
  | nil => simp [toInsertOf, validRecs]
  | cons f fd ih =>
    rcases hp : parse f.filename with _ | p
    · have h1 : toInsertOf parse rows (f :: fd) = toInsertOf parse rows fd := by
        simp [toInsertOf, List.filterMap_cons, hp]
      have h2 : validRecs parse (f :: fd) = validRecs parse fd := by
        simp [validRecs, List.filter_cons, hp]
      rw [h1, h2]
      exact ih
    · have h2 : validRecs parse (f :: fd) = f :: validRecs parse fd := by
        simp [validRecs, List.filter_cons, hp]
      rcases hl : lookupHash rows f.file_hash with _ | ex
      · have h1 : toInsertOf parse rows (f :: fd) =
            mkInsertRec p f :: toInsertOf parse rows fd := by
          simp [toInsertOf, List.filterMap_cons, hp, hl]
        rw [h1, h2, List.map_cons, List.map_cons]
        exact List.Sublist.cons₂ _ ih
      · have h1 : toInsertOf parse rows (f :: fd) = toInsertOf parse rows fd := by
          simp [toInsertOf, List.filterMap_cons, hp, hl]
        rw [h1, h2, List.map_cons]
        exact List.Sublist.cons _ ih

theorem insertOk_of_valid_nodup (parse : String → Option Parsed)
    (rows : List Lesson) (fd : List FileRec)
    (hnodup : ((validRecs parse fd).map FileRec.file_hash).Nodup) :
    insertOk rows (toInsertOf parse rows fd) := by
  constructor
  · exact hnodup.sublist (toInsertOf_hashes_sublist parse rows fd)
  · intro r hr row hrow
    obtain ⟨f, hf, p, hp, hl, rfl⟩ := toInsertOf_mem_iff.mp hr
    exact lookupHash_none_iff.mp hl row hrow

theorem sync_folder_empty (folder : String) (parse : String → Option Parsed)
    (es : List FileEntry) (db : DB)
    (hfd : (buildFileData folder es).1 = []) :
    sync_folder folder parse (ScanResult.entries es) db =
      some (db, ⟨0, 0, 0, (buildFileData folder es).2, 0⟩) := by
  simp [sync_folder, hfd]

theorem sync_folder_some (folder : String) (parse : String → Option Parsed)
    (es : List FileEntry) (db : DB)
    (hfd : (buildFileData folder es).1 ≠ [])
    (hok : insertOk db.rows (toInsertOf parse db.rows (buildFileData folder es).1))
    (hcur : observed_hashes parse (buildFileData folder es).1 ≠ []) :
    sync_folder folder parse (ScanResult.entries es) db =
      some
        (⟨(applyUpdates
            (db.rows ++ insRows db.nextId
              (toInsertOf parse db.rows (buildFileData folder es).1))
            (toUpdateOf parse db.rows (buildFileData folder es).1)).map
            (archiveRow (observed_hashes parse (buildFileData folder es).1)),
          db.nextId + (toInsertOf parse db.rows (buildFileData folder es).1).length⟩,
         ⟨(toInsertOf parse db.rows (buildFileData folder es).1).length,
          (toUpdateOf parse db.rows (buildFileData folder es).1).length,
          archivedCount (observed_hashes parse (buildFileData folder es).1)
            (applyUpdates
              (db.rows ++ insRows db.nextId
                (toInsertOf parse db.rows (buildFileData folder es).1))
              (toUpdateOf parse db.rows (buildFileData folder es).1)),
          (buildFileData folder es).2 + errorsOf parse (buildFileData folder es).1,
          unchangedOf parse db.rows (buildFileData folder es).1⟩) := by
  have hempty : (buildFileData folder es).1.isEmpty = false := by
    rcases h : (buildFileData folder es).1 with _ | ⟨a, t⟩
    · exact absurd h hfd
    · rfl
  have hcurempty : (observed_hashes parse (buildFileData folder es).1).isEmpty = false := by
    rcases h : observed_hashes parse (buildFileData folder es).1 with _ | ⟨a, t⟩
    · exact absurd h hcur
    · rfl
  simp only [sync_folder, hempty, Bool.false_eq_true, if_false,
    classifyFiles_eq, hcurempty, applyInserts_eq]
  rw [if_pos hok]


theorem sync_folder_none (folder : String) (parse : String → Option Parsed)
    (es : List FileEntry) (db : DB)
    (hfd : (buildFileData folder es).1 ≠ [])
    (hok : ¬ insertOk db.rows (toInsertOf parse db.rows (buildFileData folder es).1)) :
    sync_folder folder parse (ScanResult.entries es) db = none := by
  have hempty : (buildFileData folder es).1.isEmpty = false := by
    rcases h : (buildFileData folder es).1 with _ | ⟨a, t⟩
    · exact absurd h hfd
    · rfl
  simp only [sync_folder, hempty, Bool.false_eq_true, if_false, classifyFiles_eq]
  rw [if_neg hok]

theorem archiveRow_archives {cur : List String} {row : Lesson}
    (h1 : row.file_hash ∉ cur) (h2 : row.status ≠ Status.Archived) :
    (archiveRow cur row).status = Status.Archived := by
  rw [archiveRow, if_pos ⟨h1, h2⟩]

/-- Shared core of claims C1 and C10: in a successful run whose observed
hash set is nonempty, every stored row with an unobserved hash and a
non-archived status ends the run archived (as the row with the same id and
hash). -/
theorem sync_archive_helper (folder : String) (parse : String → Option Parsed)
    (es : List FileEntry) (db db2 : DB) (s : SyncStats)
    (hrun : sync_folder folder parse (ScanResult.entries es) db = some (db2, s))
    (hobs : observed_hashes parse (buildFileData folder es).1 ≠ [])
    {row : Lesson} (hrow : row ∈ db.rows)
    (hh : row.file_hash ∉ observed_hashes parse (buildFileData folder es).1)
    (hst : row.status ≠ Status.Archived) :
    ∃ row2 ∈ db2.rows, row2.id = row.id ∧ row2.file_hash = row.file_hash ∧
      row2.status = Status.Archived := by
  have hfd : (buildFileData folder es).1 ≠ [] := by
    intro hc
    apply hobs
    rw [hc]
    rfl
  by_cases hok : insertOk db.rows (toInsertOf parse db.rows (buildFileData folder es).1)
  · have heq := sync_folder_some folder parse es db hfd hok hobs
    rw [heq] at hrun
    have hx := Option.some.inj hrun
    have hdb : db2 = (⟨(applyUpdates
        (db.rows ++ insRows db.nextId
          (toInsertOf parse db.rows (buildFileData folder es).1))
        (toUpdateOf parse db.rows (buildFileData folder es).1)).map
        (archiveRow (observed_hashes parse (buildFileData folder es).1)),
      db.nextId + (toInsertOf parse db.rows (buildFileData folder es).1).length⟩ : DB) :=
      (Prod.mk.injEq _ _ _ _ |>.mp hx).1.symm
    rw [hdb]
    have hmem0 : row ∈ db.rows ++ insRows db.nextId
        (toInsertOf parse db.rows (buildFileData folder es).1) :=
      List.mem_append.mpr (Or.inl hrow)
    rw [applyUpdates_eq_map]
    set us := toUpdateOf parse db.rows (buildFileData folder es).1 with hus
    set cur := observed_hashes parse (buildFileData folder es).1 with hcur
    refine ⟨archiveRow cur (updFold us row),
      List.mem_map_of_mem _ (List.mem_map_of_mem _ hmem0), ?_, ?_, ?_⟩
    · rw [archiveRow_id, updFold_id]
    · rw [archiveRow_hash, updFold_hash]
    · apply archiveRow_archives
      · rw [updFold_hash]
        exact hh
      · rw [updFold_status]
        exact hst
  · rw [sync_folder_none folder parse es db hfd hok] at hrun
    exact absurd hrun (by simp)

/-- Claim C1 (amended): in any run of `sync_folder` that observes at least
one valid file, every stored lesson whose hash was not observed and whose
status is not already Archived is marked Archived. The proviso is forced by
the counterexample: when the scan observes zero valid files (`file_data`
empty, or every file unparseable) the code returns before the archival
UPDATE (or skips it, since `current_hashes` is empty), leaving statuses
untouched. -/
theorem claim_C1_amended (folder : String) (parse : String → Option Parsed)
    (es : List FileEntry) (db db2 : DB) (s : SyncStats)
    (hrun : sync_folder folder parse (ScanResult.entries es) db = some (db2, s))
    (hobs : observed_hashes parse (buildFileData folder es).1 ≠ [])
    (row : Lesson) (hrow : row ∈ db.rows)
    (hh : row.file_hash ∉ observed_hashes parse (buildFileData folder es).1)
    (hst : row.status ≠ Status.Archived) :
    ∃ row2 ∈ db2.rows, row2.id = row.id ∧ row2.file_hash = row.file_hash ∧
      row2.status = Status.Archived :=
  sync_archive_helper folder parse es db db2 s hrun hobs hrow hh hst

/-- Witness for claim C1 (amended): one valid new file is scanned while the
stored lesson with hash h2 is absent from the directory; the run archives
it. -/
theorem claim_C1_amended_witness :
    ∃ row2 ∈ (DB.mk
      [⟨1, "h2", "p", "n", "au", "ti", ⟨2023, 1, 1⟩, 0, Status.Archived, none, none⟩,
       ⟨2, "h1", "f/a 01-06-2023.mp4", "a 01-06-2023.mp4", "a", "a",
        ⟨2023, 6, 1⟩, 0, Status.New, none, none⟩] 3).rows,
      row2.id = 1 ∧ row2.file_hash = "h2" ∧ row2.status = Status.Archived :=
  claim_C1_amended "f" parse_filename
    [⟨"a 01-06-2023.mp4", true, 0, some "h1", none⟩]
    ⟨[⟨1, "h2", "p", "n", "au", "ti", ⟨2023, 1, 1⟩, 0, Status.New, none, none⟩], 2⟩
    (DB.mk
      [⟨1, "h2", "p", "n", "au", "ti", ⟨2023, 1, 1⟩, 0, Status.Archived, none, none⟩,
       ⟨2, "h1", "f/a 01-06-2023.mp4", "a 01-06-2023.mp4", "a", "a",
        ⟨2023, 6, 1⟩, 0, Status.New, none, none⟩] 3)
    ⟨1, 0, 1, 0, 0⟩ (by decide) (by decide)
    ⟨1, "h2", "p", "n", "au", "ti", ⟨2023, 1, 1⟩, 0, Status.New, none, none⟩
    (by decide) (by decide) (by decide)

/-- Counterexample to claim C1 as stated: a scan of an empty directory
observes zero valid files; the stored non-archived lesson (hash h2, not
observed) is NOT archived — the run returns early with the store
untouched. -/
theorem claim_C1_counterexample :
    sync_folder "f" parse_filename (ScanResult.entries [])
      ⟨[⟨1, "h2", "p", "n", "au", "ti", ⟨2023, 1, 1⟩, 0, Status.New, none, none⟩], 2⟩ =
      some (⟨[⟨1, "h2", "p", "n", "au", "ti", ⟨2023, 1, 1⟩, 0, Status.New, none, none⟩], 2⟩,
        ⟨0, 0, 0, 0, 0⟩) ∧
    (⟨[⟨1, "h2", "p", "n", "au", "ti", ⟨2023, 1, 1⟩, 0, Status.New, none, none⟩], 2⟩ :
      DB).rows.map Lesson.status = [Status.New] := by
  exact ⟨by decide, by decide⟩


theorem buildFileData_go (folder : String) (es : List FileEntry) :
    ∀ acc : List FileRec × Nat,
      es.foldl (buildStep folder) acc =
        (acc.1 ++ (buildFileData folder es).1,
         acc.2 + (buildFileData folder es).2) := by
  induction es with
  | nil =>
    intro acc
    simp [buildFileData]
  | cons e es ih =>
    intro acc
    rw [List.foldl_cons, ih]
    have h2 : buildFileData folder (e :: es) =
        ((buildStep folder ([], 0) e).1 ++ (buildFileData folder es).1,
         (buildStep folder ([], 0) e).2 + (buildFileData folder es).2) := by
      rw [buildFileData, List.foldl_cons, ih]
    rw [h2]
    by_cases hc : (e.is_file && isMp4 e.name) = true
    · rcases hfh : e.file_hash with _ | h
      · simp only [buildStep, hc, if_true, hfh]
        refine Prod.ext ?_ ?_
        · simp
        · simp only []
          omega
      · simp only [buildStep, hc, if_true, hfh]
        refine Prod.ext ?_ ?_
        · simp
        · simp
    · simp only [buildStep, hc, if_false]
      simp

theorem mem_buildFileData (folder : String) {es : List FileEntry} {e : FileEntry}
    (he : e ∈ es) {h : String} (hf : e.is_file = true) (hm : isMp4 e.name = true)
    (hh : e.file_hash = some h) :
    (⟨h, normJoin folder e.name, e.name, e.mtime, e.transcript⟩ : FileRec) ∈
      (buildFileData folder es).1 := by
  obtain ⟨l1, l2, rfl⟩ := List.append_of_mem he
  have hstep : buildStep folder (List.foldl (buildStep folder) ([], 0) l1) e =
      ((List.foldl (buildStep folder) ([], 0) l1).1 ++
        [⟨h, normJoin folder e.name, e.name, e.mtime, e.transcript⟩],
       (List.foldl (buildStep folder) ([], 0) l1).2) := by
    rw [buildStep, if_pos (by rw [hf, hm]; rfl)]
    rw [hh]
  rw [buildFileData, List.foldl_append, List.foldl_cons, buildFileData_go, hstep]
  simp

theorem errorsOf_pos (parse : String → Option Parsed) {fd : List FileRec}
    {f : FileRec} (hmem : f ∈ fd) (hp : parse f.filename = none) :
    1 ≤ errorsOf parse fd := by
  rw [errorsOf]
  have hin : f ∈ fd.filter fun g => (parse g.filename).isNone :=
    List.mem_filter.mpr ⟨hmem, by rw [hp]; rfl⟩
  exact List.length_pos.mpr (List.ne_nil_of_mem hin)

/-- Claim C10 (amended): when a scan succeeds and at least one OTHER file
parses (so the observed-hash set is nonempty), a scanned `.mp4` file whose
name fails parsing contributes to the errors count, its hash (carried by no
parseable file) is absent from the observed hashes, and a stored
non-archived lesson with that hash is archived in the same run despite its
file being present. The nonempty-observed proviso is forced by the
counterexample: if every scanned file is unparseable, `current_hashes` is
empty, the archival UPDATE is skipped, and the lesson keeps its status. -/
theorem claim_C10_amended (folder : String) (parse : String → Option Parsed)
    (es : List FileEntry) (db db2 : DB) (s : SyncStats)
    (hrun : sync_folder folder parse (ScanResult.entries es) db = some (db2, s))
    (e : FileEntry) (he : e ∈ es) (hf : e.is_file = true)
    (hm : isMp4 e.name = true) (h : String) (hh : e.file_hash = some h)
    (hpe : parse e.name = none)
    (hall : ∀ fr ∈ (buildFileData folder es).1, fr.file_hash = h →
      parse fr.filename = none)
    (hobs : observed_hashes parse (buildFileData folder es).1 ≠ [])
    (row : Lesson) (hrow : row ∈ db.rows) (hrh : row.file_hash = h)
    (hst : row.status ≠ Status.Archived) :
    1 ≤ s.errors ∧
    h ∉ observed_hashes parse (buildFileData folder es).1 ∧
    ∃ row2 ∈ db2.rows, row2.id = row.id ∧ row2.file_hash = h ∧
      row2.status = Status.Archived := by
  have hnotobs : h ∉ observed_hashes parse (buildFileData folder es).1 := by
    intro hc
    rcases (mem_observed parse _ h).mp hc with ⟨g, hg, hgs, hgh⟩
    rw [hall g hg hgh] at hgs
    exact absurd hgs (by simp)
  refine ⟨?_, hnotobs, ?_⟩
  · have hfd : (buildFileData folder es).1 ≠ [] := by
      intro hc
      apply hobs
      rw [hc]
      rfl
    have hrec : (⟨h, normJoin folder e.name, e.name, e.mtime, e.transcript⟩ :
        FileRec) ∈ (buildFileData folder es).1 :=
      mem_buildFileData folder he hf hm hh
    have herr : 1 ≤ errorsOf parse (buildFileData folder es).1 :=
      errorsOf_pos parse hrec hpe
    by_cases hok : insertOk db.rows
        (toInsertOf parse db.rows (buildFileData folder es).1)
    · have heq := sync_folder_some folder parse es db hfd hok hobs
      rw [heq] at hrun
      have hx := Option.some.inj hrun
      have hs := ((Prod.mk.injEq _ _ _ _).mp hx).2
      rw [← hs]
      show 1 ≤ (buildFileData folder es).2 +
        errorsOf parse (buildFileData folder es).1
      omega
    · rw [sync_folder_none folder parse es db hfd hok] at hrun
      exact absurd hrun (by simp)
  · obtain ⟨row2, hmem2, hid2, hhash2, hst2⟩ :=
      sync_archive_helper folder parse es db db2 s hrun hobs hrow
        (by rw [hrh]; exact hnotobs) hst
    exact ⟨row2, hmem2, hid2, by rw [hhash2, hrh], hst2⟩


/-- Witness for claim C10 (amended): the stored lesson's file was renamed to
the unparseable `bad.mp4` (hash h2) while a second, parseable file (hash h1)
is present; the run counts one error, does not observe h2, and archives the
lesson. -/
theorem claim_C10_amended_witness :
    1 ≤ (SyncStats.mk 1 0 1 1 0).errors ∧
    "h2" ∉ observed_hashes parse_filename
      (buildFileData "f"
        [⟨"bad.mp4", true, 0, some "h2", none⟩,
         ⟨"a 01-06-2023.mp4", true, 0, some "h1", none⟩]).1 ∧
    ∃ row2 ∈ (DB.mk
      [⟨1, "h2", "p", "n", "au", "ti", ⟨2023, 1, 1⟩, 0, Status.Archived, none, none⟩,
       ⟨2, "h1", "f/a 01-06-2023.mp4", "a 01-06-2023.mp4", "a", "a",
        ⟨2023, 6, 1⟩, 0, Status.New, none, none⟩] 3).rows,
      row2.id = 1 ∧ row2.file_hash = "h2" ∧ row2.status = Status.Archived :=
  claim_C10_amended "f" parse_filename
    [⟨"bad.mp4", true, 0, some "h2", none⟩,
     ⟨"a 01-06-2023.mp4", true, 0, some "h1", none⟩]
    ⟨[⟨1, "h2", "p", "n", "au", "ti", ⟨2023, 1, 1⟩, 0, Status.New, none, none⟩], 2⟩
    (DB.mk
      [⟨1, "h2", "p", "n", "au", "ti", ⟨2023, 1, 1⟩, 0, Status.Archived, none, none⟩,
       ⟨2, "h1", "f/a 01-06-2023.mp4", "a 01-06-2023.mp4", "a", "a",
        ⟨2023, 6, 1⟩, 0, Status.New, none, none⟩] 3)
    ⟨1, 0, 1, 1, 0⟩ (by decide)
    ⟨"bad.mp4", true, 0, some "h2", none⟩ (by decide) (by decide) (by decide)
    "h2" (by decide) (by decide) (by decide) (by decide)
    ⟨1, "h2", "p", "n", "au", "ti", ⟨2023, 1, 1⟩, 0, Status.New, none, none⟩
    (by decide) (by decide) (by decide)

/-- Counterexample to claim C10 as stated: when the unparseable file is the
ONLY scanned file, `current_hashes` is empty, the archival UPDATE is
skipped, and the non-archived lesson with the file's hash keeps status New
(while errors is still counted). -/
theorem claim_C10_counterexample :
    sync_folder "f" parse_filename
      (ScanResult.entries [⟨"bad.mp4", true, 0, some "h2", none⟩])
      ⟨[⟨1, "h2", "p", "n", "au", "ti", ⟨2023, 1, 1⟩, 0, Status.New, none, none⟩], 2⟩ =
      some (⟨[⟨1, "h2", "p", "n", "au", "ti", ⟨2023, 1, 1⟩, 0, Status.New, none, none⟩], 2⟩,
        ⟨0, 0, 0, 1, 0⟩) ∧
    parse_filename "bad.mp4" = none ∧
    (⟨[⟨1, "h2", "p", "n", "au", "ti", ⟨2023, 1, 1⟩, 0, Status.New, none, none⟩], 2⟩ :
      DB).rows.map Lesson.status = [Status.New] := by
  exact ⟨by decide, by decide, by decide⟩


theorem updLesson_idem (u : UpdateRec) (row : Lesson) :
    updLesson u (updLesson u row) = updLesson u row := by
  rcases h : u.transcript with _ | s <;>
    simp [updLesson, coalesce, h]

theorem updFold_absorb {us : List UpdateRec} {u : UpdateRec} {row : Lesson}
    (huniq : ∀ v ∈ us, v.id = row.id → v = u) :
    updFold us (updLesson u row) = updLesson u row := by
  induction us with
  | nil => rfl
  | cons v us ih =>
    rw [updFold, List.foldl_cons]
    have hid : (updLesson u row).id = row.id := rfl
    by_cases hv : row.id = v.id
    · have hveq : v = u := huniq v (List.mem_cons_self v us) hv.symm
      subst hveq
      rw [if_pos (by rw [hid]; exact hv), updLesson_idem]
      exact ih fun w hw hwid => huniq w (List.mem_cons_of_mem v hw) hwid
    · rw [if_neg (by rw [hid]; exact hv)]
      exact ih fun w hw hwid => huniq w (List.mem_cons_of_mem v hw) hwid

theorem updFold_eq_updLesson {us : List UpdateRec} {u : UpdateRec} {row : Lesson}
    (hu : u ∈ us) (huid : u.id = row.id)
    (huniq : ∀ v ∈ us, v.id = row.id → v = u) :
    updFold us row = updLesson u row := by
  induction us with
  | nil => exact absurd hu (List.not_mem_nil u)
  | cons v us ih =>
    rw [updFold, List.foldl_cons]
    by_cases hv : row.id = v.id
    · have hveq : v = u := huniq v (List.mem_cons_self v us) hv.symm
      subst hveq
      rw [if_pos hv]
      exact updFold_absorb fun w hw hwid => huniq w (List.mem_cons_of_mem v hw) hwid
    · rw [if_neg hv]
      rcases List.mem_cons.mp hu with rfl | hu2
      · exact absurd (huid ▸ rfl : u.id = row.id).symm (by rw [huid] at hv; exact fun hc => hv (hc ▸ rfl))
      · exact ih hu2 fun w hw hwid => huniq w (List.mem_cons_of_mem v hw) hwid

theorem syncBase_hashes_nodup (parse : String → Option Parsed) (db : DB)
    (fd : List FileRec) (hwf : WF db)
    (hok : insertOk db.rows (toInsertOf parse db.rows fd)) :
    ((db.rows ++ insRows db.nextId (toInsertOf parse db.rows fd)).map
      Lesson.file_hash).Nodup := by
  rw [List.map_append, insRows_hashes, List.nodup_append]
  refine ⟨hwf.2.1, hok.1, ?_⟩
  intro x hx1 hx2
  rcases List.mem_map.mp hx1 with ⟨row, hrow, rfl⟩
  rcases List.mem_map.mp hx2 with ⟨r, hr, he⟩
  exact hok.2 r hr row hrow he.symm

/-- The per-row uniqueness of `to_update` targets: an update record aimed at
the row found for file `f` can only be the one produced by `f` itself (ids
are unique in the store, hashes are unique in the scan). -/
theorem toUpdateOf_match (parse : String → Option Parsed) (db : DB)
    (fd : List FileRec) (hwf : WF db)
    (hnd : (fd.map FileRec.file_hash).Nodup)
    {f : FileRec} (hf : f ∈ fd) {ex : Lesson}
    (hl : lookupHash db.rows f.file_hash = some ex)
    {v : UpdateRec} (hv : v ∈ toUpdateOf parse db.rows fd) (hvid : v.id = ex.id) :
    v = mkUpdateRec ex f ∧ needsUpdate ex f = true := by
  have hexm := lookupHash_mem hl
  obtain ⟨g, hg, q, ex2, hq, hl2, hneed2, rfl⟩ := toUpdateOf_mem_iff.mp hv
  have hex2 := lookupHash_mem hl2
  have hid2 : ex2.id = ex.id := hvid
  have hexeq : ex2 = ex := List.inj_on_of_nodup_map hwf.1 hex2.1 hexm.1 hid2
  subst hexeq
  have hgf : g = f := by
    apply List.inj_on_of_nodup_map hnd hg hf
    rw [← hex2.2, hexm.2]
  subst hgf
  exact ⟨rfl, hneed2⟩

/-- After one run, each parsed scanned file has a row in the resulting table
carrying its hash and needing no further update. -/
theorem run1_file_row (parse : String → Option Parsed) (db : DB)
    (fd : List FileRec) (hwf : WF db)
    (hnd : (fd.map FileRec.file_hash).Nodup)
    {f : FileRec} (hf : f ∈ fd) {p : Parsed} (hp : parse f.filename = some p) :
    ∃ row1 ∈ (applyUpdates
        (db.rows ++ insRows db.nextId (toInsertOf parse db.rows fd))
        (toUpdateOf parse db.rows fd)).map
        (archiveRow (observed_hashes parse fd)),
      row1.file_hash = f.file_hash ∧ needsUpdate row1 f = false := by
  have hobsf : f.file_hash ∈ observed_hashes parse fd :=
    (mem_observed parse fd f.file_hash).mpr ⟨f, hf, by rw [hp]; rfl, rfl⟩
  rw [applyUpdates_eq_map]
  rcases hl : lookupHash db.rows f.file_hash with _ | ex
  · have hins : mkInsertRec p f ∈ toInsertOf parse db.rows fd :=
      toInsertOf_mem_iff.mpr ⟨f, hf, p, hp, hl, rfl⟩
    obtain ⟨m, hm, hmem⟩ := insRows_of_mem _ db.nextId _ hins
    have hbase : insertLesson m (mkInsertRec p f) ∈
        db.rows ++ insRows db.nextId (toInsertOf parse db.rows fd) :=
      List.mem_append.mpr (Or.inr hmem)
    have hnoupd : ∀ u ∈ toUpdateOf parse db.rows fd,
        u.id ≠ (insertLesson m (mkInsertRec p f)).id := by
      intro u hu
      obtain ⟨g, hg, q, ex2, hq, hl2, hneed2, rfl⟩ := toUpdateOf_mem_iff.mp hu
      have hex2 := lookupHash_mem hl2
      have hlt := hwf.2.2 ex2 hex2.1
      intro hc
      have hc2 : ex2.id = m := hc
      omega
    have hupdF : updFold (toUpdateOf parse db.rows fd)
        (insertLesson m (mkInsertRec p f)) = insertLesson m (mkInsertRec p f) :=
      updFold_of_no_match _ _ hnoupd
    have hhash : (insertLesson m (mkInsertRec p f)).file_hash = f.file_hash := rfl
    refine ⟨archiveRow (observed_hashes parse fd)
        (updFold (toUpdateOf parse db.rows fd) (insertLesson m (mkInsertRec p f))),
      List.mem_map_of_mem _ (List.mem_map_of_mem _ hbase), ?_, ?_⟩
    · rw [hupdF, archiveRow_of_mem (by rw [hhash]; exact hobsf), hhash]
    · rw [hupdF, archiveRow_of_mem (by rw [hhash]; exact hobsf)]
      simp [needsUpdate, insertLesson, mkInsertRec]
  · have hexm := lookupHash_mem hl
    have hbase : ex ∈ db.rows ++ insRows db.nextId (toInsertOf parse db.rows fd) :=
      List.mem_append.mpr (Or.inl hexm.1)
    by_cases hneed : needsUpdate ex f = true
    · have hu : mkUpdateRec ex f ∈ toUpdateOf parse db.rows fd :=
        toUpdateOf_mem_iff.mpr ⟨f, hf, p, ex, hp, hl, hneed, rfl⟩
      have hufold : updFold (toUpdateOf parse db.rows fd) ex =
          updLesson (mkUpdateRec ex f) ex :=
        updFold_eq_updLesson hu rfl
          (fun v hv hvid => (toUpdateOf_match parse db fd hwf hnd hf hl hv hvid).1)
      have hhash2 : (updLesson (mkUpdateRec ex f) ex).file_hash = f.file_hash :=
        hexm.2
      refine ⟨archiveRow (observed_hashes parse fd)
          (updFold (toUpdateOf parse db.rows fd) ex),
        List.mem_map_of_mem _ (List.mem_map_of_mem _ hbase), ?_, ?_⟩
      · rw [hufold, archiveRow_of_mem (by rw [hhash2]; exact hobsf), hhash2]
      · rw [hufold, archiveRow_of_mem (by rw [hhash2]; exact hobsf)]
        show needsUpdate (updLesson (mkUpdateRec ex f) ex) f = false
        by_cases ht : truthy f.transcript = true
        · rcases hft : f.transcript with _ | str
          · rw [hft] at ht
            exact absurd ht (by simp [truthy])
          · rw [hft] at ht
            simp [needsUpdate, updLesson, mkUpdateRec, coalesce, hft, ht]
        · simp only [Bool.not_eq_true] at ht
          simp [needsUpdate, updLesson, mkUpdateRec, ht]
    · have hnoupd : ∀ u ∈ toUpdateOf parse db.rows fd, u.id ≠ ex.id := by
        intro u hu hc
        exact hneed (toUpdateOf_match parse db fd hwf hnd hf hl hu hc).2
      have hufold := updFold_of_no_match (toUpdateOf parse db.rows fd) ex hnoupd
      refine ⟨archiveRow (observed_hashes parse fd)
          (updFold (toUpdateOf parse db.rows fd) ex),
        List.mem_map_of_mem _ (List.mem_map_of_mem _ hbase), ?_, ?_⟩
      · rw [hufold, archiveRow_of_mem (by rw [hexm.2]; exact hobsf), hexm.2]
      · rw [hufold, archiveRow_of_mem (by rw [hexm.2]; exact hobsf)]
        simp only [Bool.not_eq_true] at hneed
        exact hneed


theorem map_hash_archive (obs : List String) (l : List Lesson) :
    (l.map (archiveRow obs)).map Lesson.file_hash = l.map Lesson.file_hash := by
  rw [List.map_map]
  exact List.map_congr_left fun r _ => archiveRow_hash obs r

theorem map_hash_updFold (us : List UpdateRec) (l : List Lesson) :
    (l.map (updFold us)).map Lesson.file_hash = l.map Lesson.file_hash := by
  rw [List.map_map]
  exact List.map_congr_left fun r _ => updFold_hash us r

/-- A second run over an unchanged directory whose table already reflects the
scan (every file matched by an up-to-date row, every row observed or
archived) classifies every file as unchanged and changes no counters. -/
theorem run2_clean (folder : String) (parse : String → Option Parsed)
    (es : List FileEntry) (db1 : DB)
    (hfdnil : (buildFileData folder es).1 ≠ [])
    (hobs : observed_hashes parse (buildFileData folder es).1 ≠ [])
    (hparse : ∀ fr ∈ (buildFileData folder es).1, (parse fr.filename).isSome = true)
    (herr : (buildFileData folder es).2 = 0)
    (hnd1 : (db1.rows.map Lesson.file_hash).Nodup)
    (hfile : ∀ f ∈ (buildFileData folder es).1, ∃ row1 ∈ db1.rows,
      row1.file_hash = f.file_hash ∧ needsUpdate row1 f = false)
    (harch : ∀ row ∈ db1.rows,
      row.file_hash ∈ observed_hashes parse (buildFileData folder es).1 ∨
      row.status = Status.Archived) :
    ∃ db2, sync_folder folder parse (ScanResult.entries es) db1 =
      some (db2, ⟨0, 0, 0, 0, (buildFileData folder es).1.length⟩) := by
  have hins2 : toInsertOf parse db1.rows (buildFileData folder es).1 = [] := by
    rw [toInsertOf, List.filterMap_eq_nil_iff]
    intro f hf
    rcases Option.isSome_iff_exists.mp (hparse f hf) with ⟨p, hp⟩
    obtain ⟨row1, hrow1, hh1, hnu⟩ := hfile f hf
    have hl := lookupHash_unique hnd1 hrow1 hh1
    simp only [hp, hl]
  have hupd2 : toUpdateOf parse db1.rows (buildFileData folder es).1 = [] := by
    rw [toUpdateOf, List.filterMap_eq_nil_iff]
    intro f hf
    rcases Option.isSome_iff_exists.mp (hparse f hf) with ⟨p, hp⟩
    obtain ⟨row1, hrow1, hh1, hnu⟩ := hfile f hf
    have hl := lookupHash_unique hnd1 hrow1 hh1
    simp [hp, hl, hnu]
  have herr2 : errorsOf parse (buildFileData folder es).1 = 0 := by
    rw [errorsOf, List.length_eq_zero, List.filter_eq_nil_iff]
    intro f hf
    rcases Option.isSome_iff_exists.mp (hparse f hf) with ⟨p, hp⟩
    simp [hp]
  have hunch2 : unchangedOf parse db1.rows (buildFileData folder es).1 =
      (buildFileData folder es).1.length := by
    rw [unchangedOf]
    refine congrArg List.length (List.filter_eq_self.mpr ?_)
    intro f hf
    rcases Option.isSome_iff_exists.mp (hparse f hf) with ⟨p, hp⟩
    obtain ⟨row1, hrow1, hh1, hnu⟩ := hfile f hf
    have hl := lookupHash_unique hnd1 hrow1 hh1
    simp [hp, hl, hnu]
  have hok2 : insertOk db1.rows (toInsertOf parse db1.rows (buildFileData folder es).1) := by
    rw [hins2]
    exact ⟨List.nodup_nil, fun r hr => absurd hr (List.not_mem_nil r)⟩
  have heq2 := sync_folder_some folder parse es db1 hfdnil hok2 hobs
  refine ⟨⟨db1.rows.map
    (archiveRow (observed_hashes parse (buildFileData folder es).1)),
    db1.nextId⟩, ?_⟩
  rw [heq2, hins2, hupd2, herr2, herr, hunch2,
    show insRows db1.nextId ([] : List InsertRec) = [] from rfl, List.append_nil,
    show applyUpdates db1.rows ([] : List UpdateRec) = db1.rows from rfl,
    archivedCount_zero harch]
  simp

/-- Claim C3 (amended): sync is idempotent for a directory whose files are
all parseable PROVIDED every kept `.mp4` file hashed successfully and the
scanned content hashes are pairwise distinct: the first run succeeds, and a
second run with no filesystem change returns added=0, updated=0, archived=0,
errors=0 and unchanged equal to the number of scanned video files. The
distinct-hash proviso is forced by the counterexample: two parseable files
with equal content hashes make the batched INSERT violate the UNIQUE
file_hash constraint, so the first run raises IntegrityError and rolls back
instead of completing. -/
theorem claim_C3_idempotent (folder : String) (parse : String → Option Parsed)
    (es : List FileEntry) (db : DB) (hwf : WF db)
    (hparse : ∀ fr ∈ (buildFileData folder es).1, (parse fr.filename).isSome = true)
    (herr : (buildFileData folder es).2 = 0)
    (hnd : ((buildFileData folder es).1.map FileRec.file_hash).Nodup) :
    ∃ db1 s1 db2,
      sync_folder folder parse (ScanResult.entries es) db = some (db1, s1) ∧
      sync_folder folder parse (ScanResult.entries es) db1 =
        some (db2, ⟨0, 0, 0, 0, (buildFileData folder es).1.length⟩) := by
  by_cases hfdnil : (buildFileData folder es).1 = []
  · refine ⟨db, ⟨0, 0, 0, (buildFileData folder es).2, 0⟩, db,
      sync_folder_empty folder parse es db hfdnil, ?_⟩
    rw [sync_folder_empty folder parse es db hfdnil, herr, hfdnil]
    rfl
  · have hvalid : validRecs parse (buildFileData folder es).1 =
        (buildFileData folder es).1 :=
      List.filter_eq_self.mpr (fun f hf => hparse f hf)
    have hok1 : insertOk db.rows (toInsertOf parse db.rows (buildFileData folder es).1) :=
      insertOk_of_valid_nodup parse db.rows _ (by rw [hvalid]; exact hnd)
    obtain ⟨f0, hf0⟩ := List.exists_mem_of_ne_nil _ hfdnil
    have hobs : observed_hashes parse (buildFileData folder es).1 ≠ [] := by
      rcases Option.isSome_iff_exists.mp (hparse f0 hf0) with ⟨p0, hp0⟩
      exact List.ne_nil_of_mem
        ((mem_observed parse _ f0.file_hash).mpr ⟨f0, hf0, by rw [hp0]; rfl, rfl⟩)
    have heq1 := sync_folder_some folder parse es db hfdnil hok1 hobs
    have hnd1 : (((applyUpdates
        (db.rows ++ insRows db.nextId (toInsertOf parse db.rows (buildFileData folder es).1))
        (toUpdateOf parse db.rows (buildFileData folder es).1)).map
        (archiveRow (observed_hashes parse (buildFileData folder es).1))).map
        Lesson.file_hash).Nodup := by
      rw [applyUpdates_eq_map, map_hash_archive, map_hash_updFold]
      exact syncBase_hashes_nodup parse db _ hwf hok1
    have hfile : ∀ f ∈ (buildFileData folder es).1,
        ∃ row1 ∈ (applyUpdates
          (db.rows ++ insRows db.nextId (toInsertOf parse db.rows (buildFileData folder es).1))
          (toUpdateOf parse db.rows (buildFileData folder es).1)).map
          (archiveRow (observed_hashes parse (buildFileData folder es).1)),
        row1.file_hash = f.file_hash ∧ needsUpdate row1 f = false := by
      intro f hf
      rcases Option.isSome_iff_exists.mp (hparse f hf) with ⟨p, hp⟩
      exact run1_file_row parse db _ hwf hnd hf hp
    have harch : ∀ row ∈ (applyUpdates
        (db.rows ++ insRows db.nextId (toInsertOf parse db.rows (buildFileData folder es).1))
        (toUpdateOf parse db.rows (buildFileData folder es).1)).map
        (archiveRow (observed_hashes parse (buildFileData folder es).1)),
        row.file_hash ∈ observed_hashes parse (buildFileData folder es).1 ∨
        row.status = Status.Archived := by
      intro row hrow
      rcases List.mem_map.mp hrow with ⟨r0, _, rfl⟩
      exact archiveRow_status _ r0
    obtain ⟨db2, h2⟩ := run2_clean folder parse es
      ⟨(applyUpdates
        (db.rows ++ insRows db.nextId (toInsertOf parse db.rows (buildFileData folder es).1))
        (toUpdateOf parse db.rows (buildFileData folder es).1)).map
        (archiveRow (observed_hashes parse (buildFileData folder es).1)),
       db.nextId + (toInsertOf parse db.rows (buildFileData folder es).1).length⟩
      hfdnil hobs hparse herr hnd1 hfile harch
    exact ⟨_, _, db2, heq1, h2⟩

/-- Witness for claim C3 (amended): one parseable hashed file over an empty
store; the first run inserts it and the second run reports it unchanged. -/
theorem claim_C3_idempotent_witness :
    ∃ db1 s1 db2,
      sync_folder "f" parse_filename
        (ScanResult.entries [⟨"a 01-06-2023.mp4", true, 0, some "h1", none⟩])
        ⟨[], 1⟩ = some (db1, s1) ∧
      sync_folder "f" parse_filename
        (ScanResult.entries [⟨"a 01-06-2023.mp4", true, 0, some "h1", none⟩])
        db1 =
        some (db2, ⟨0, 0, 0, 0,
          (buildFileData "f"
            [⟨"a 01-06-2023.mp4", true, 0, some "h1", none⟩]).1.length⟩) :=
  claim_C3_idempotent "f" parse_filename
    [⟨"a 01-06-2023.mp4", true, 0, some "h1", none⟩] ⟨[], 1⟩
    ⟨List.nodup_nil, List.nodup_nil, fun row hrow => absurd hrow (List.not_mem_nil row)⟩
    (by decide) (by decide) (by decide)

/-- Counterexample to claim C3 as stated: a directory with two parseable
files that share one content hash (two copies of the same video). The
first run's batched INSERT violates the UNIQUE(file_hash) constraint, so
sync_folder raises IntegrityError and rolls back (modelled as `none`)
rather than completing — there is no successful pair of runs at all. -/
theorem claim_C3_counterexample :
    (parse_filename "a 01-06-2023.mp4").isSome = true ∧
    (parse_filename "b 01-06-2023.mp4").isSome = true ∧
    sync_folder "f" parse_filename
      (ScanResult.entries
        [⟨"a 01-06-2023.mp4", true, 0, some "h", none⟩,
         ⟨"b 01-06-2023.mp4", true, 0, some "h", none⟩])
      ⟨[], 1⟩ = none := by
  exact ⟨by decide, by decide, by decide⟩

theorem normJoin_inj (folder : String) {a b : String}
    (h : normJoin folder a = normJoin folder b) : a = b := by
  rw [normJoin, normJoin] at h
  have hd := congrArg String.data h
  rw [String.data_append, String.data_append] at hd
  have hcancel := List.append_cancel_left hd
  cases a
  cases b
  simp only at hcancel
  rw [hcancel]

theorem buildFileData_shape (folder : String) (es : List FileEntry) :
    ∀ fr ∈ (buildFileData folder es).1, fr.filepath = normJoin folder fr.filename := by
  induction es with
  | nil =>
    intro fr h
    exact absurd h (List.not_mem_nil fr)
  | cons e es ih =>
    intro fr hm
    have h2 : buildFileData folder (e :: es) =
        ((buildStep folder ([], 0) e).1 ++ (buildFileData folder es).1,
         (buildStep folder ([], 0) e).2 + (buildFileData folder es).2) := by
      rw [buildFileData, List.foldl_cons, buildFileData_go]
    rw [h2] at hm
    rcases List.mem_append.mp hm with hm | hm
    · rw [buildStep] at hm
      by_cases hc : (e.is_file && isMp4 e.name) = true
      · rw [if_pos hc] at hm
        rcases hfh : e.file_hash with _ | h
        · simp [hfh] at hm
        · simp only [hfh, List.nil_append, List.mem_singleton] at hm
          rw [hm]
      · rw [if_neg hc] at hm
        exact absurd hm (List.not_mem_nil fr)
    · exact ih fr hm

/-- Claim C5: file_hash is the durable identity of a lesson. In a successful
run over a scan with pairwise-distinct content hashes, against a
well-formed store whose filepaths agree with their filenames: a scanned
parseable file whose hash matches an existing row leaves exactly one row
with that hash — the same row (same id), updated in place to the file's
filepath/filename/mtime with its status preserved — and a scanned parseable
file whose hash is absent from the store yields exactly one row with that
hash: a fresh row (id at least the old autoincrement counter) with status
New and the file's metadata. -/
theorem claim_C5_hash_identity (folder : String) (parse : String → Option Parsed)
    (es : List FileEntry) (db db1 : DB) (s : SyncStats)
    (hwf : WF db)
    (hnd : ((buildFileData folder es).1.map FileRec.file_hash).Nodup)
    (hpath : ∀ row ∈ db.rows, row.filepath = normJoin folder row.filename)
    (hrun : sync_folder folder parse (ScanResult.entries es) db = some (db1, s))
    (f : FileRec) (hf : f ∈ (buildFileData folder es).1)
    (p : Parsed) (hp : parse f.filename = some p) :
    (∀ ex ∈ db.rows, ex.file_hash = f.file_hash →
      ∃ row1 ∈ db1.rows, row1.id = ex.id ∧ row1.file_hash = f.file_hash ∧
        row1.filepath = f.filepath ∧ row1.filename = f.filename ∧
        row1.file_mtime = f.mtime ∧ row1.status = ex.status ∧
        ∀ row2 ∈ db1.rows, row2.file_hash = f.file_hash → row2 = row1) ∧
    ((∀ ex ∈ db.rows, ex.file_hash ≠ f.file_hash) →
      ∃ row1 ∈ db1.rows, db.nextId ≤ row1.id ∧ row1.file_hash = f.file_hash ∧
        row1.filepath = f.filepath ∧ row1.filename = f.filename ∧
        row1.file_mtime = f.mtime ∧ row1.status = Status.New ∧
        ∀ row2 ∈ db1.rows, row2.file_hash = f.file_hash → row2 = row1) := by
  have hfdnil : (buildFileData folder es).1 ≠ [] := List.ne_nil_of_mem hf
  have hobsf : f.file_hash ∈ observed_hashes parse (buildFileData folder es).1 :=
    (mem_observed parse _ f.file_hash).mpr ⟨f, hf, by rw [hp]; rfl, rfl⟩
  have hobs : observed_hashes parse (buildFileData folder es).1 ≠ [] :=
    List.ne_nil_of_mem hobsf
  by_cases hok : insertOk db.rows (toInsertOf parse db.rows (buildFileData folder es).1)
  · have heq := sync_folder_some folder parse es db hfdnil hok hobs
    rw [heq] at hrun
    have hx := Option.some.inj hrun
    have hdb1 := ((Prod.mk.injEq _ _ _ _).mp hx).1
    have hrows1 : db1.rows = (applyUpdates
        (db.rows ++ insRows db.nextId (toInsertOf parse db.rows (buildFileData folder es).1))
        (toUpdateOf parse db.rows (buildFileData folder es).1)).map
        (archiveRow (observed_hashes parse (buildFileData folder es).1)) := by
      rw [← hdb1]
    have hnd1 : (db1.rows.map Lesson.file_hash).Nodup := by
      rw [hrows1, applyUpdates_eq_map, map_hash_archive, map_hash_updFold]
      exact syncBase_hashes_nodup parse db _ hwf hok
    have huniq : ∀ row1 ∈ db1.rows, row1.file_hash = f.file_hash →
        ∀ row2 ∈ db1.rows, row2.file_hash = f.file_hash → row2 = row1 :=
      fun row1 h1 e1 row2 h2 e2 =>
        List.inj_on_of_nodup_map hnd1 h2 h1 (by rw [e1, e2])
    constructor
    · intro ex hex hexh
      have hl : lookupHash db.rows f.file_hash = some ex :=
        lookupHash_unique hwf.2.1 hex hexh
      by_cases hneed : needsUpdate ex f = true
      · have hu : mkUpdateRec ex f ∈
            toUpdateOf parse db.rows (buildFileData folder es).1 :=
          toUpdateOf_mem_iff.mpr ⟨f, hf, p, ex, hp, hl, hneed, rfl⟩
        have hufold : updFold (toUpdateOf parse db.rows (buildFileData folder es).1) ex =
            updLesson (mkUpdateRec ex f) ex :=
          updFold_eq_updLesson hu rfl
            (fun v hv hvid => (toUpdateOf_match parse db _ hwf hnd hf hl hv hvid).1)
        have hhash2 : (updLesson (mkUpdateRec ex f) ex).file_hash = f.file_hash := hexh
        have hmem1 : updLesson (mkUpdateRec ex f) ex ∈ db1.rows := by
          rw [hrows1, applyUpdates_eq_map]
          have hin := List.mem_map_of_mem
            (archiveRow (observed_hashes parse (buildFileData folder es).1))
            (List.mem_map_of_mem
              (updFold (toUpdateOf parse db.rows (buildFileData folder es).1))
              (show ex ∈ db.rows ++ insRows db.nextId
                  (toInsertOf parse db.rows (buildFileData folder es).1) from
                List.mem_append.mpr (Or.inl hex)))
          rw [hufold, archiveRow_of_mem (by rw [hhash2]; exact hobsf)] at hin
          exact hin
        exact ⟨updLesson (mkUpdateRec ex f) ex, hmem1, rfl, hhash2, rfl, rfl, rfl, rfl,
          huniq _ hmem1 hhash2⟩
      · have hext : ex.filepath = f.filepath ∧ ex.file_mtime = f.mtime := by
          simp only [Bool.not_eq_true] at hneed
          rw [needsUpdate] at hneed
          simp only [Bool.or_eq_false_iff, decide_eq_false_iff_not, not_not] at hneed
          exact ⟨hneed.1.1, hneed.1.2⟩
        have hname : ex.filename = f.filename :=
          normJoin_inj folder (by
            rw [← hpath ex hex, ← buildFileData_shape folder es f hf]
            exact hext.1)
        have hnoupd : ∀ u ∈ toUpdateOf parse db.rows (buildFileData folder es).1,
            u.id ≠ ex.id := by
          intro u hu hc
          exact hneed (toUpdateOf_match parse db _ hwf hnd hf hl hu hc).2
        have hufold := updFold_of_no_match
          (toUpdateOf parse db.rows (buildFileData folder es).1) ex hnoupd
        have hmem1 : ex ∈ db1.rows := by
          rw [hrows1, applyUpdates_eq_map]
          have hin := List.mem_map_of_mem
            (archiveRow (observed_hashes parse (buildFileData folder es).1))
            (List.mem_map_of_mem
              (updFold (toUpdateOf parse db.rows (buildFileData folder es).1))
              (show ex ∈ db.rows ++ insRows db.nextId
                  (toInsertOf parse db.rows (buildFileData folder es).1) from
                List.mem_append.mpr (Or.inl hex)))
          rw [hufold, archiveRow_of_mem (by rw [hexh]; exact hobsf)] at hin
          exact hin
        exact ⟨ex, hmem1, rfl, hexh, hext.1, hname, hext.2, rfl, huniq _ hmem1 hexh⟩
    · intro habs
      have hl : lookupHash db.rows f.file_hash = none :=
        lookupHash_none_iff.mpr habs
      have hins : mkInsertRec p f ∈
          toInsertOf parse db.rows (buildFileData folder es).1 :=
        toInsertOf_mem_iff.mpr ⟨f, hf, p, hp, hl, rfl⟩
      obtain ⟨m, hm, hmemIns⟩ := insRows_of_mem _ db.nextId _ hins
      have hnoupd : ∀ u ∈ toUpdateOf parse db.rows (buildFileData folder es).1,
          u.id ≠ (insertLesson m (mkInsertRec p f)).id := by
        intro u hu
        obtain ⟨g, hg, q, ex2, hq, hl2, hneed2, rfl⟩ := toUpdateOf_mem_iff.mp hu
        have hex2 := lookupHash_mem hl2
        have hlt := hwf.2.2 ex2 hex2.1
        intro hc
        have hc2 : ex2.id = m := hc
        omega
      have hufold := updFold_of_no_match
        (toUpdateOf parse db.rows (buildFileData folder es).1) _ hnoupd
      have hhash : (insertLesson m (mkInsertRec p f)).file_hash = f.file_hash := rfl
      have hmem1 : insertLesson m (mkInsertRec p f) ∈ db1.rows := by
        rw [hrows1, applyUpdates_eq_map]
        have hin := List.mem_map_of_mem
          (archiveRow (observed_hashes parse (buildFileData folder es).1))
          (List.mem_map_of_mem
            (updFold (toUpdateOf parse db.rows (buildFileData folder es).1))
            (show insertLesson m (mkInsertRec p f) ∈ db.rows ++ insRows db.nextId
                (toInsertOf parse db.rows (buildFileData folder es).1) from
              List.mem_append.mpr (Or.inr hmemIns)))
        rw [hufold, archiveRow_of_mem (by rw [hhash]; exact hobsf)] at hin
        exact hin
      exact ⟨insertLesson m (mkInsertRec p f), hmem1, hm, rfl, rfl, rfl, rfl, rfl,
        huniq _ hmem1 rfl⟩
  · rw [sync_folder_none folder parse es db hfdnil hok] at hrun
    exact absurd hrun (by simp)

/-- Witness for claim C5: the stored lesson (hash h1, status In Progress)
was renamed on disk from `old 01-06-2023.mp4` to `a 01-06-2023.mp4` with a
new mtime; the run updates that row in place, keeping id 1 and its status,
and no second row with hash h1 exists. -/
theorem claim_C5_hash_identity_witness :
    (∀ ex ∈ (DB.mk
        [⟨1, "h1", "f/old 01-06-2023.mp4", "old 01-06-2023.mp4", "old", "old",
          ⟨2023, 6, 1⟩, 0, Status.InProgress, none, none⟩] 2).rows,
      ex.file_hash = (⟨"h1", "f/a 01-06-2023.mp4", "a 01-06-2023.mp4", 5, none⟩ :
        FileRec).file_hash →
      ∃ row1 ∈ (DB.mk
        [⟨1, "h1", "f/a 01-06-2023.mp4", "a 01-06-2023.mp4", "old", "old",
          ⟨2023, 6, 1⟩, 5, Status.InProgress, none, none⟩] 2).rows,
        row1.id = ex.id ∧
        row1.file_hash = (⟨"h1", "f/a 01-06-2023.mp4", "a 01-06-2023.mp4", 5, none⟩ :
          FileRec).file_hash ∧
        row1.filepath = (⟨"h1", "f/a 01-06-2023.mp4", "a 01-06-2023.mp4", 5, none⟩ :
          FileRec).filepath ∧
        row1.filename = (⟨"h1", "f/a 01-06-2023.mp4", "a 01-06-2023.mp4", 5, none⟩ :
          FileRec).filename ∧
        row1.file_mtime = (⟨"h1", "f/a 01-06-2023.mp4", "a 01-06-2023.mp4", 5, none⟩ :
          FileRec).mtime ∧
        row1.status = ex.status ∧
        ∀ row2 ∈ (DB.mk
          [⟨1, "h1", "f/a 01-06-2023.mp4", "a 01-06-2023.mp4", "old", "old",
            ⟨2023, 6, 1⟩, 5, Status.InProgress, none, none⟩] 2).rows,
          row2.file_hash = (⟨"h1", "f/a 01-06-2023.mp4", "a 01-06-2023.mp4", 5, none⟩ :
            FileRec).file_hash → row2 = row1) ∧
    ((∀ ex ∈ (DB.mk
        [⟨1, "h1", "f/old 01-06-2023.mp4", "old 01-06-2023.mp4", "old", "old",
          ⟨2023, 6, 1⟩, 0, Status.InProgress, none, none⟩] 2).rows,
      ex.file_hash ≠ (⟨"h1", "f/a 01-06-2023.mp4", "a 01-06-2023.mp4", 5, none⟩ :
        FileRec).file_hash) →
      ∃ row1 ∈ (DB.mk
        [⟨1, "h1", "f/a 01-06-2023.mp4", "a 01-06-2023.mp4", "old", "old",
          ⟨2023, 6, 1⟩, 5, Status.InProgress, none, none⟩] 2).rows,
        2 ≤ row1.id ∧
        row1.file_hash = (⟨"h1", "f/a 01-06-2023.mp4", "a 01-06-2023.mp4", 5, none⟩ :
          FileRec).file_hash ∧
        row1.filepath = (⟨"h1", "f/a 01-06-2023.mp4", "a 01-06-2023.mp4", 5, none⟩ :
          FileRec).filepath ∧
        row1.filename = (⟨"h1", "f/a 01-06-2023.mp4", "a 01-06-2023.mp4", 5, none⟩ :
          FileRec).filename ∧
        row1.file_mtime = (⟨"h1", "f/a 01-06-2023.mp4", "a 01-06-2023.mp4", 5, none⟩ :
          FileRec).mtime ∧
        row1.status = Status.New ∧
        ∀ row2 ∈ (DB.mk
          [⟨1, "h1", "f/a 01-06-2023.mp4", "a 01-06-2023.mp4", "old", "old",
            ⟨2023, 6, 1⟩, 5, Status.InProgress, none, none⟩] 2).rows,
          row2.file_hash = (⟨"h1", "f/a 01-06-2023.mp4", "a 01-06-2023.mp4", 5, none⟩ :
            FileRec).file_hash → row2 = row1) :=
  claim_C5_hash_identity "f" parse_filename
    [⟨"a 01-06-2023.mp4", true, 5, some "h1", none⟩]
    ⟨[⟨1, "h1", "f/old 01-06-2023.mp4", "old 01-06-2023.mp4", "old", "old",
       ⟨2023, 6, 1⟩, 0, Status.InProgress, none, none⟩], 2⟩
    (DB.mk
      [⟨1, "h1", "f/a 01-06-2023.mp4", "a 01-06-2023.mp4", "old", "old",
        ⟨2023, 6, 1⟩, 5, Status.InProgress, none, none⟩] 2)
    ⟨0, 1, 0, 0, 0⟩
    ⟨by decide, by decide, by decide⟩ (by decide) (by decide) (by decide)
    ⟨"h1", "f/a 01-06-2023.mp4", "a 01-06-2023.mp4", 5, none⟩ (by decide)
    ⟨"a", "a", ⟨2023, 6, 1⟩⟩ (by decide)
end School
